import Mathlib

/-!
Verification of the script-structuring engine of script-buddy.

The development shallowly embeds the TypeScript sources:
* `CharacterRecognitionService.analyzeScriptText` and its private helpers
  (`extractScriptTitle`, `isCommonWord`, `isSceneDirection`, `looksLikeDialogue`)
  from src/services/character-recognition.service.ts;
* `PdfTextExtraction.detectScriptStructure` from
  src/services/pdf-extraction-module.js.

Strings are modelled as lists of characters (`Str`).  JavaScript string
primitives (`split('\n')`, `trim`, `startsWith`, `substring`, `toUpperCase`,
`toLowerCase`) and the concrete regular expressions of the source are
translated into executable functions on `Str`.  Case conversion is modelled on
the ASCII range, which is exact for every comparison the engine performs
against its ASCII pattern constants; JavaScript string length is modelled as
the number of code points.  Fallible array accesses of the JavaScript code
(indexing the last scene / the last line of a scene) are modelled with
`Option`, so that the embedded engine returns `none` exactly where the
original would dereference `undefined`.
-/

namespace ScriptBuddy

/-- Strings are modelled as lists of characters. -/
abbrev Str := List Char

/-- Convert a Lean string literal into the `Str` model. -/
def str (s : String) : Str := s.data

/-- The JavaScript whitespace class: the characters matched by `\s` in a
regular expression, which is also the set trimmed by `String.prototype.trim`. -/
def jsIsWs (c : Char) : Bool :=
  c.val = 9 || c.val = 10 || c.val = 11 || c.val = 12 || c.val = 13 || c.val = 32 ||
  c.val = 0xa0 || c.val = 0x1680 || (0x2000 ≤ c.val && c.val ≤ 0x200a) ||
  c.val = 0x2028 || c.val = 0x2029 || c.val = 0x202f || c.val = 0x205f ||
  c.val = 0x3000 || c.val = 0xfeff

/-- Drop leading JavaScript whitespace. -/
def trimL (s : Str) : Str := s.dropWhile jsIsWs

/-- Drop trailing JavaScript whitespace. -/
def trimR (s : Str) : Str := (s.reverse.dropWhile jsIsWs).reverse

/-- `String.prototype.trim`. -/
def jsTrim (s : Str) : Str := trimR (trimL s)

/-- `rawText.split('\n')`: split at every newline, keeping empty pieces. -/
def splitNl (s : Str) : List Str :=
  s.foldr
    (fun c acc =>
      if c = '\n' then [] :: acc
      else
        match acc with
        | l :: ls => (c :: l) :: ls
        | [] => [[c]])
    [[]]

/-- `s.startsWith(p)` (first argument is the pattern). -/
def startsWithStr : Str → Str → Bool
  | [], _ => true
  | _ :: _, [] => false
  | p :: ps, c :: cs => p = c && startsWithStr ps cs

/-- Case-insensitive prefix test, as performed by an `i`-flag regular
expression whose pattern characters are ASCII. -/
def startsWithCI : Str → Str → Bool
  | [], _ => true
  | _ :: _, [] => false
  | p :: ps, c :: cs => p.toUpper = c.toUpper && startsWithCI ps cs

/-- The decimal digit character for `d < 10`. -/
def digitChar (d : Nat) : Char := Char.ofNat (48 + d)

/-- Accumulator loop producing the decimal digits of a number; the first
argument is fuel making the recursion structural.  One digit is produced per
step, so any fuel at least the value itself (used below) is enough. -/
def natStrGo : Nat → Nat → Str → Str
  | _, 0, acc => acc
  | 0, _ + 1, acc => acc
  | fuel + 1, n + 1, acc => natStrGo fuel ((n + 1) / 10) (digitChar ((n + 1) % 10) :: acc)

/-- `(n).toString()`: the decimal representation of a natural number. -/
def natStr (n : Nat) : Str := if n = 0 then ['0'] else natStrGo n n []

/-- The ASCII class `[A-Z]`. -/
def isUpperAZ (c : Char) : Bool := 'A' ≤ c && c ≤ 'Z'

/-- The ASCII class `[A-Za-z]`. -/
def isAsciiLetter (c : Char) : Bool := isUpperAZ c || ('a' ≤ c && c ≤ 'z')

/-- The class `[A-Za-z\s]` used inside the speaker patterns. -/
def isWordClass (c : Char) : Bool := isAsciiLetter c || jsIsWs c

/-- One attempt of `/^([A-Z][A-Za-z\s]+):/` at the start of `s`: on success
returns the captured name together with the text following the colon.
Backtracking makes the match unique: the capture is the maximal run of
`[A-Za-z\s]` characters after the initial capital, and it must be followed
immediately by a colon. -/
def tryMatch : Str → Option (Str × Str)
  | [] => none
  | c :: rest =>
    if isUpperAZ c then
      let run := rest.takeWhile isWordClass
      match rest.dropWhile isWordClass with
      | ':' :: after => if run.isEmpty then none else some (c :: run, after)
      | _ => none
    else none

/-- Pattern 1 of the first pass, `/^([A-Z][A-Za-z\s]+):/`, returning the
captured group. -/
def matchP1 (line : Str) : Option Str := (tryMatch line).map Prod.fst

/-- Pattern 2 of the first pass, `/^([A-Z][A-Za-z\s]+)\s+\(/`.  The greedy
capture extends to one character before the opening parenthesis, which must
be preceded by at least one whitespace character inside the run. -/
def matchP2 : Str → Option Str
  | [] => none
  | c :: rest =>
    if isUpperAZ c then
      let run := rest.takeWhile isWordClass
      match rest.dropWhile isWordClass with
      | '(' :: _ =>
        match run.getLast? with
        | some lastRun =>
          if jsIsWs lastRun && run.length ≥ 2 then some (c :: run.dropLast) else none
        | none => none
      | _ => none
    else none

/-- Pattern 3 of the first pass, `/^\s*([A-Z]{2,})\s*$/`. -/
def matchP3 (line : Str) : Option Str :=
  let s1 := line.dropWhile jsIsWs
  let caps := s1.takeWhile isUpperAZ
  if caps.length ≥ 2 && (s1.dropWhile isUpperAZ).all jsIsWs then some caps else none

/-- The stop list of `isCommonWord` (verbatim from the source). -/
def commonWords : List Str :=
  [str "IL", str "LO", str "LA", str "I", str "GLI", str "LE", str "UN",
   str "UNA", str "UNO", str "E", str "O", str "MA", str "SE", str "PERCHÉ",
   str "QUINDI", str "COSÌ", str "ALLORA", str "ATTO", str "SCENA",
   str "FINE", str "INIZIO", str "SIPARIO", str "ENTRA", str "ESCE"]

/-- `isCommonWord`: membership of the upper-cased word in the stop list. -/
def isCommonWord (word : Str) : Bool := commonWords.contains (word.map Char.toUpper)

/-- The length / stop-list filter applied to a trimmed captured name. -/
def goodName (n : Str) : Bool := n.length > 1 && !isCommonWord n

/-- The names a single raw line contributes to the mention tally: each of the
three patterns is executed on the line, captures are trimmed, and names of
length at most one or on the stop list are discarded. -/
def lineMentions (line : Str) : List Str :=
  (([matchP1 line, matchP2 line, matchP3 line].filterMap id).map jsTrim).filter goodName

/-- `characterMentions.set(name, (get(name) || 0) + 1)` on an insertion-ordered
map modelled as an association list: increment in place, or append. -/
def bump (m : List (Str × Nat)) (name : Str) : List (Str × Nat) :=
  match m with
  | [] => [(name, 1)]
  | (k, v) :: rest => if k = name then (k, v + 1) :: rest else (k, v) :: bump rest name

/-- The first pass: tally every mention over the whole document, keys in
first-seen order. -/
def tallyOf (lines : List Str) : List (Str × Nat) :=
  lines.foldl (fun m line => (lineMentions line).foldl bump m) []

/-- Stable insertion (by strictly larger count) used to model the stable
`Array.prototype.sort` with comparator `(a, b) => b[1] - a[1]`. -/
def insertDesc (x : Str × Nat) : List (Str × Nat) → List (Str × Nat)
  | [] => [x]
  | y :: ys => if y.2 < x.2 then x :: y :: ys else y :: insertDesc x ys

/-- Stable sort by descending count (ties keep first-seen order), the
ECMAScript-specified behaviour of `sort((a, b) => b[1] - a[1])`. -/
def sortDesc (l : List (Str × Nat)) : List (Str × Nat) :=
  l.foldl (fun acc x => insertDesc x acc) []

/-- The tally entries retained by `.filter(([_, count]) => count >= 2)`. -/
def qualifying (lines : List Str) : List (Str × Nat) :=
  (tallyOf lines).filter (fun p => p.2 ≥ 2)

/-- `likelyCharacters`: qualifying entries sorted by descending count. -/
def likelyCharacters (lines : List Str) : List (Str × Nat) :=
  sortDesc (qualifying lines)

/-- A character of the structured script. -/
structure Character where
  id : Str
  name : Str
deriving DecidableEq, Repr

/-- A line of the structured script. -/
structure Line where
  id : Str
  characterId : Str
  text : Str
  sceneId : Str
  isDirection : Bool
deriving DecidableEq, Repr

/-- A scene of the structured script. -/
structure Scene where
  id : Str
  name : Str
  lines : List Line
deriving DecidableEq, Repr

/-- The structured script. -/
structure Script where
  title : Str
  characters : List Character
  scenes : List Scene
deriving DecidableEq, Repr

/-- `likelyCharacters.forEach((name, index) => ...)`: assign ids
`"1", "2", …` in sorted order (generalised over the start index). -/
def buildCatalog : Nat → List (Str × Nat) → List Character
  | _, [] => []
  | i, p :: rest => ⟨natStr (i + 1), p.1⟩ :: buildCatalog (i + 1) rest

/-- The ordered character catalog produced by the first pass. -/
def catalogOf (lines : List Str) : List Character :=
  buildCatalog 0 (likelyCharacters lines)

/-- `/^(ATTO|SCENA|ACT|SCENE)\s+([IVX\d]+)/i`: the class `[IVX\d]` under
case-insensitive canonicalisation. -/
def romanOrDigit (c : Char) : Bool :=
  c.toUpper = 'I' || c.toUpper = 'V' || c.toUpper = 'X' || ('0' ≤ c && c ≤ '9')

/-- One alternative of the scene-marker pattern: the keyword (case-insensitive),
at least one whitespace character, then a Roman-numeral or digit token. -/
def kwNumMatch (kw : Str) (line : Str) : Bool :=
  startsWithCI kw line &&
    (let rest := line.drop kw.length
     !(rest.takeWhile jsIsWs).isEmpty &&
       (match rest.dropWhile jsIsWs with
        | c :: _ => romanOrDigit c
        | [] => false))

/-- `line.match(/^(ATTO|SCENA|ACT|SCENE)\s+([IVX\d]+)/i)` as a test. -/
def isSceneMarker (line : Str) : Bool :=
  kwNumMatch (str "ATTO") line || kwNumMatch (str "SCENA") line ||
    kwNumMatch (str "ACT") line || kwNumMatch (str "SCENE") line

/-- The stage-action starters of `isSceneDirection` (verbatim). -/
def directionStarts : List Str :=
  [str "Entra", str "Esce", str "Entra in scena", str "Esce di scena",
   str "Si alza", str "Si siede"]

/-- `isSceneDirection`: fully parenthesised, or starting with a stage-action
verb (case-insensitive). -/
def isSceneDirection (line : Str) : Bool :=
  (startsWithStr (str "(") line && line.getLast?.any (fun c => c = ')')) ||
    directionStarts.any (fun kw => startsWithCI kw line)

/-- `/[.!?]$/.test(line)`. -/
def endsWithPunct (line : Str) : Bool :=
  line.getLast?.any (fun c => c = '.' || c = '!' || c = '?')

/-- `line.toUpperCase() === line`, modelled on the ASCII range. -/
def allUpper (line : Str) : Bool := line.map Char.toUpper == line

/-- `looksLikeDialogue` (verbatim translation of the cascade). -/
def looksLikeDialogue (line : Str) : Bool :=
  if line.length < 3 then false
  else if endsWithPunct line then true
  else if startsWithStr (str "(") line || (allUpper line && line.length > 10) then false
  else true

/-- Walk the catalog in insertion order and return the first character whose
name followed by a colon starts the line. -/
def findSpeaker : List Character → Str → Option Character
  | [], _ => none
  | ch :: rest, line =>
    if startsWithStr (ch.name ++ [':']) line then some ch else findSpeaker rest line

/-- The mutable state of the second pass: the scenes built so far, the current
speaker id, and the line counter. -/
structure PState where
  scenes : List Scene
  current : Option Str
  counter : Nat
deriving DecidableEq, Repr

/-- Replace the last element of a list, or fail on the empty list (the
JavaScript code indexes `array[array.length - 1]`). -/
def updateLast (f : α → α) : List α → Option (List α)
  | [] => none
  | [a] => some [f a]
  | a :: b :: rest => (updateLast f (b :: rest)).map (a :: ·)

/-- Total variant used where the JavaScript code mutates the last element of a
list it has already checked to be non-empty. -/
def modifyLastTotal (f : α → α) : List α → List α
  | [] => []
  | [a] => [f a]
  | a :: b :: rest => a :: modifyLastTotal f (b :: rest)

/-- Append a freshly numbered line to a scene (`(++lineCounter).toString()`
with the counter value before the increment passed as `n - 1`). -/
def pushTo (sc : Scene) (n : Nat) (chId : Str) (txt : Str) (dir : Bool) : Scene :=
  { sc with lines := sc.lines ++ [⟨natStr n, chId, txt, sc.id, dir⟩] }

/-- Push a new line onto the current (last) scene and advance the counter. -/
def appendLine (st : PState) (chId : Str) (txt : Str) (dir : Bool) : Option PState :=
  (updateLast (fun sc => pushTo sc (st.counter + 1) chId txt dir) st.scenes).map
    (fun scs => { st with scenes := scs, counter := st.counter + 1 })

/-- One iteration of the second-pass loop of `analyzeScriptText` on a raw
input line. -/
def step (cat : List Character) (st : PState) (raw : Str) : Option PState :=
  let line := jsTrim raw
  if line.length = 0 then some st
  else if isSceneMarker line then
    some { st with scenes := st.scenes ++ [⟨natStr (st.scenes.length + 1), line, []⟩] }
  else
    match findSpeaker cat line with
    | some ch =>
      let st' := { st with current := some ch.id }
      let dialog := jsTrim (line.drop (ch.name.length + 1))
      if dialog.length > 0 then appendLine st' ch.id dialog false else some st'
    | none =>
      match st.current with
      | some cid =>
        if isSceneDirection line then appendLine st (str "0") line true
        else
          match st.scenes.getLast? with
          | none => none
          | some sc =>
            match sc.lines.getLast? with
            | some pl =>
              if pl.characterId = cid then
                (updateLast
                    (fun s =>
                      { s with
                        lines := modifyLastTotal
                          (fun l => { l with text := l.text ++ ' ' :: line }) s.lines })
                    st.scenes).map
                  (fun scs => { st with scenes := scs })
              else if looksLikeDialogue line then appendLine st cid line false
              else appendLine st (str "0") line true
            | none =>
              if looksLikeDialogue line then appendLine st cid line false
              else appendLine st (str "0") line true
      | none => appendLine st (str "0") line true

/-- The initial state: the implicit scene `"1"` named `"Scena 1"`. -/
def initState : PState := ⟨[⟨str "1", str "Scena 1", []⟩], none, 0⟩

/-- The whole second pass. -/
def runLines (cat : List Character) (lines : List Str) : Option PState :=
  List.foldlM (step cat) initState lines

/-- Candidate filter of `extractScriptTitle`: non-empty, shorter than 60
characters, and without a colon. -/
def goodCand (line : Str) : Bool :=
  !line.isEmpty && line.length < 60 && !line.contains ':'

/-- The candidate-collection loop of `extractScriptTitle`, with its early exit
after the second candidate; the fuel argument models `i < Math.min(10, n)`. -/
def collectCands : List Str → Nat → List Str → List Str
  | _, 0, acc => acc
  | [], _, acc => acc
  | l :: rest, f + 1, acc =>
    let line := jsTrim l
    let acc' := if goodCand line then acc ++ [line] else acc
    if acc'.length ≥ 2 then acc' else collectCands rest f acc'

/-- The extension alternation `(pdf|txt)` under case-insensitive matching. -/
def extOK (l : Str) : Bool :=
  l.map Char.toLower == str "pdf" || l.map Char.toLower == str "txt"

/-- `rawText.substring(0, 100).match(/([^\/\\]+)\.(pdf|txt)$/i)`: the first
capture on success.  The end anchor forces the dot four characters before the
end; the greedy leftmost capture is the maximal slash-free run before it. -/
def fileNameMatch (s : Str) : Option Str :=
  match s.reverse with
  | a :: b :: c :: d :: rest =>
    if d = '.' && extOK [c, b, a] then
      let cap := rest.takeWhile (fun x => !(x = '/' || x = '\\'))
      if cap.isEmpty then none else some cap.reverse
    else none
  | _ => none

/-- `.replace(/[_-]/g, ' ')` on a single character. -/
def sepToSpace (c : Char) : Char := if c = '_' || c = '-' then ' ' else c

/-- The fallback chain of `extractScriptTitle`: a filename-like suffix of the
first 100 characters, else the fixed placeholder. -/
def fallbackTitle (raw : Str) : Str :=
  match fileNameMatch (raw.take 100) with
  | some nm => nm.map sepToSpace
  | none => str "Copione Importato"

/-- `extractScriptTitle` (the candidate list never has more than two
elements). -/
def extractScriptTitle (raw : Str) (lines : List Str) : Str :=
  match collectCands lines 10 [] with
  | [] => fallbackTitle raw
  | [c] => c
  | c1 :: c2 :: _ => if allUpper c2 && !allUpper c1 then c2 else c1

/-- `analyzeScriptText`, with `none` exactly where the original would
dereference `undefined`. -/
def analyzeScriptTextE (raw : Str) : Option Script :=
  let lines := splitNl raw
  let cat := catalogOf lines
  (runLines cat lines).map
    (fun st => ⟨extractScriptTitle raw lines, cat, st.scenes⟩)

/-- All lines of a script in document order. -/
def allLines (scs : List Scene) : List Line := (scs.map Scene.lines).flatten

/-- The argument of the recursive `gmScan` call after skipping to the next
line start. -/
def skipLine (s : Str) : Str := (s.dropWhile (fun c => c ≠ '\n')).drop 1

/-- The global scan of `extractedText.match(/^[A-Z][A-Za-z\s]+:/gm)`: the
argument always starts at a line start; after a match (or a failed attempt)
the scan resumes at the line start following the consumed text.  The fuel
argument makes the recursion structural; each recursive call strictly
shrinks the text, so any fuel above the length is enough (`gmScanGo_congr`
below shows the value is then independent of the fuel). -/
def gmScanGo : Nat → Str → List Str
  | 0, _ => []
  | fuel + 1, s =>
    match tryMatch s with
    | some (cap, after) => cap :: gmScanGo fuel (skipLine after)
    | none => if s.isEmpty then [] else gmScanGo fuel (skipLine s)

/-- The list of matches of the global multiline speaker pattern. -/
def gmScan (s : Str) : List Str := gmScanGo (s.length + 1) s

/-- Insertion-ordered deduplication, the behaviour of filling a JavaScript
`Set` and reading it back with `Array.from`. -/
def dedupFirst (l : List Str) : List Str :=
  l.foldl (fun acc x => if acc.contains x then acc else acc ++ [x]) []

/-- The result record of `detectScriptStructure`. -/
structure StructureInfo where
  isLikelyScript : Bool
  characterCount : Nat
  characterNames : List Str
  dialogueLines : Nat
deriving DecidableEq, Repr

/-- `PdfTextExtraction.detectScriptStructure`: run the global multiline match,
trim each match minus its colon, deduplicate. -/
def detectScriptStructure (text : Str) : StructureInfo :=
  let ms := (gmScan text).map jsTrim
  let names := dedupFirst ms
  ⟨decide (ms.length > 3) && decide (names.length ≥ 2), names.length, names, ms.length⟩

/-- No two adjacent whitespace characters. -/
def noWsPair : Str → Bool
  | c1 :: c2 :: rest => !(jsIsWs c1 && jsIsWs c2) && noWsPair (c2 :: rest)
  | _ => true

/-- The property claimed of emitted line texts: trimmed with every internal
whitespace run collapsed to a single space. -/
def wsCollapsed (s : Str) : Bool :=
  (jsTrim s == s) && s.all (fun c => !jsIsWs c || c = ' ') && noWsPair s

/-! ### Lemmas: the shape of a speaker-pattern match -/

/-- On success `tryMatch` decomposes its argument: the capture (of length at
least two), the colon, and the remainder. -/
theorem tryMatch_eq_some {s cap after : Str} (h : tryMatch s = some (cap, after)) :
    s = cap ++ ':' :: after ∧ 2 ≤ cap.length := by
  cases s with
  | nil => simp [tryMatch] at h
  | cons c rest =>
    simp only [tryMatch] at h
    split at h
    case isTrue hc =>
      split at h
      case h_1 after' heq =>
        split at h
        case isTrue => simp at h
        case isFalse hrun =>
          simp only [Option.some.injEq, Prod.mk.injEq] at h
          obtain ⟨hcap, hafter⟩ := h
          have hsplit := List.takeWhile_append_dropWhile isWordClass rest
          rw [heq] at hsplit
          subst hafter
          constructor
          · rw [← hcap]
            simpa using hsplit.symm
          · rw [← hcap]
            cases hAll : rest.takeWhile isWordClass with
            | nil => rw [hAll] at hrun; simp at hrun
            | cons y ys => simp
      case h_2 => simp at h
    case isFalse hc => simp at h

/-- On success the remainder returned by `tryMatch` is shorter by at least the
capture and the colon. -/
theorem tryMatch_length {s cap after : Str} (h : tryMatch s = some (cap, after)) :
    after.length + 3 ≤ s.length := by
  obtain ⟨hs, hlen⟩ := tryMatch_eq_some h
  subst hs
  simp only [List.length_append, List.length_cons]
  omega

theorem length_dropWhile_le' {α : Type} (p : α → Bool) (l : List α) :
    (l.dropWhile p).length ≤ l.length := by
  induction l with
  | nil => simp
  | cons c cs ih =>
    by_cases h : p c
    · simp only [List.dropWhile_cons, h, if_true]
      simpa using Nat.le_succ_of_le ih
    · simp [List.dropWhile_cons, h]

theorem skipLine_length_le (s : Str) : (skipLine s).length ≤ s.length := by
  have h1 := length_dropWhile_le' (fun c => c ≠ '\n') s
  simp only [skipLine, List.length_drop]
  omega

theorem skipLine_length_lt {s : Str} (h : s ≠ []) : (skipLine s).length < s.length := by
  have h1 := length_dropWhile_le' (fun c => c ≠ '\n') s
  have h2 : 1 ≤ s.length := by
    cases s with
    | nil => exact absurd rfl h
    | cons c cs => simp
  simp only [skipLine, List.length_drop]
  match hd : s.dropWhile (fun c => c ≠ '\n') with
  | [] => simpa [hd] using h2
  | x :: xs =>
    have : (x :: xs).length ≤ s.length := hd ▸ h1
    simp only [List.length_cons] at this ⊢
    omega

/-! ### Lemmas: decimal ids -/

theorem natStrGo_shape : ∀ (fuel n : Nat) (acc : Str), ∃ l, natStrGo fuel n acc = l ++ acc := by
  intro fuel
  induction fuel with
  | zero =>
    intro n acc
    cases n with
    | zero => exact ⟨[], by simp [natStrGo]⟩
    | succ m => exact ⟨[], by simp [natStrGo]⟩
  | succ f ih =>
    intro n acc
    cases n with
    | zero => exact ⟨[], by simp [natStrGo]⟩
    | succ m =>
      obtain ⟨l, hl⟩ := ih ((m + 1) / 10) (digitChar ((m + 1) % 10) :: acc)
      refine ⟨l ++ [digitChar ((m + 1) % 10)], ?_⟩
      rw [natStrGo, hl]
      simp

theorem natStrGo_length {fuel n : Nat} (hf : fuel ≠ 0) (hn : n ≠ 0) (acc : Str) :
    acc.length + 1 ≤ (natStrGo fuel n acc).length := by
  match fuel, n with
  | f + 1, m + 1 =>
    rw [natStrGo]
    obtain ⟨l, hl⟩ := natStrGo_shape f ((m + 1) / 10) (digitChar ((m + 1) % 10) :: acc)
    rw [hl]
    simp

theorem digitChar_eq_zero {d : Nat} (hd : d < 10) : digitChar d = '0' ↔ d = 0 := by
  interval_cases d <;> simp [digitChar]

/-- A positive counter never stringifies to `"0"`. -/
theorem natStr_succ_ne_zero (n : Nat) : natStr (n + 1) ≠ str "0" := by
  intro h
  rw [natStr, if_neg (Nat.succ_ne_zero n)] at h
  rw [natStrGo] at h
  rcases Nat.eq_zero_or_pos ((n + 1) / 10) with hq | hq
  · rw [hq] at h
    have h' : [digitChar ((n + 1) % 10)] = str "0" := by
      rw [← h]
      cases n with
      | zero => rfl
      | succ m => rfl
    have hmod : (n + 1) % 10 < 10 := Nat.mod_lt _ (by norm_num)
    have hd : digitChar ((n + 1) % 10) = '0' := by simpa [str] using h'
    have h0 : (n + 1) % 10 = 0 := (digitChar_eq_zero hmod).mp hd
    have := Nat.div_add_mod (n + 1) 10
    omega
  · have hn9 : 9 ≤ n := by
      by_contra hlt
      have : n + 1 < 10 := by omega
      have : (n + 1) / 10 = 0 := Nat.div_eq_of_lt this
      omega
    have hlen := @natStrGo_length n ((n + 1) / 10) (by omega) (Nat.pos_iff_ne_zero.mp hq)
      [digitChar ((n + 1) % 10)]
    rw [h] at hlen
    simp [str] at hlen

/-! ### Lemmas: last-element update helpers -/

theorem updateLast_concat (f : α → α) (l : List α) (a : α) :
    updateLast f (l ++ [a]) = some (l ++ [f a]) := by
  induction l with
  | nil => simp [updateLast]
  | cons x xs ih =>
    cases xs with
    | nil => simp [updateLast]
    | cons y ys => simpa [updateLast] using ih

theorem updateLast_ne_nil {f : α → α} {l l' : List α} (h : updateLast f l = some l') :
    l ≠ [] := by
  intro hl
  subst hl
  simp [updateLast] at h

theorem updateLast_eq {f : α → α} {l : List α} (h : l ≠ []) :
    updateLast f l = some (l.dropLast ++ [f (l.getLast h)]) := by
  conv_lhs => rw [← List.dropLast_append_getLast h]
  exact updateLast_concat f l.dropLast (l.getLast h)

theorem modifyLastTotal_concat (f : α → α) (l : List α) (a : α) :
    modifyLastTotal f (l ++ [a]) = l ++ [f a] := by
  induction l with
  | nil => simp [modifyLastTotal]
  | cons x xs ih =>
    cases xs with
    | nil => simp [modifyLastTotal]
    | cons y ys => simpa [modifyLastTotal] using ih

theorem allLines_append (s1 s2 : List Scene) :
    allLines (s1 ++ s2) = allLines s1 ++ allLines s2 := by
  simp [allLines]

theorem allLines_dropLast {scs : List Scene} (h : scs ≠ []) :
    allLines scs = allLines scs.dropLast ++ (scs.getLast h).lines := by
  conv_lhs => rw [← List.dropLast_append_getLast h]
  rw [allLines_append]
  simp [allLines]

/-! ### Lemmas: JavaScript trimming -/

theorem dropWhile_dropWhile {α : Type} (p : α → Bool) (l : List α) :
    (l.dropWhile p).dropWhile p = l.dropWhile p := by
  induction l with
  | nil => simp
  | cons c t ih =>
    by_cases h : p c
    · simpa [List.dropWhile_cons, h] using ih
    · simp [List.dropWhile_cons, h]

theorem dropWhile_eq_self_of_length {α : Type} {p : α → Bool} {l : List α}
    (h : (l.dropWhile p).length = l.length) : l.dropWhile p = l := by
  cases l with
  | nil => simp
  | cons c t =>
    by_cases hc : p c
    · exfalso
      rw [List.dropWhile_cons, if_pos hc] at h
      have := length_dropWhile_le' p t
      simp at h
      omega
    · rw [List.dropWhile_cons, if_neg hc]

theorem trimL_cons_of_not_ws {c : Char} (h : jsIsWs c = false) (t : Str) :
    trimL (c :: t) = c :: t := by
  simp [trimL, List.dropWhile_cons, h]

theorem trimR_concat_of_not_ws {c : Char} (h : jsIsWs c = false) (t : Str) :
    trimR (t ++ [c]) = t ++ [c] := by
  simp [trimR, List.dropWhile_cons, h]

theorem trimL_length_le (s : Str) : (trimL s).length ≤ s.length :=
  length_dropWhile_le' _ _

theorem trimR_length_le (s : Str) : (trimR s).length ≤ s.length := by
  have := length_dropWhile_le' jsIsWs s.reverse
  simpa [trimR] using this

theorem trimL_trimL (s : Str) : trimL (trimL s) = trimL s :=
  dropWhile_dropWhile jsIsWs s

theorem trimR_trimR (s : Str) : trimR (trimR s) = trimR s := by
  simp [trimR, dropWhile_dropWhile]

theorem head_not_ws_of_trimL {c : Char} {t : Str} (h : trimL (c :: t) = c :: t) :
    jsIsWs c = false := by
  cases hc : jsIsWs c
  · rfl
  · exfalso
    simp only [trimL, List.dropWhile_cons, hc, if_true] at h
    have h1 := length_dropWhile_le' jsIsWs t
    rw [h] at h1
    simp at h1

theorem last_not_ws_of_trimR {c : Char} {t : Str} (h : trimR (t ++ [c]) = t ++ [c]) :
    jsIsWs c = false := by
  cases hc : jsIsWs c
  · rfl
  · exfalso
    rw [trimR] at h
    simp only [List.reverse_append, List.reverse_cons, List.reverse_nil,
      List.nil_append, List.singleton_append, List.dropWhile_cons, hc, if_true] at h
    have h1 := length_dropWhile_le' jsIsWs t.reverse
    have h2 := congrArg List.length h
    have h3 : t.reverse.length = t.length := by simp
    simp at h2
    omega

theorem trimL_trimR {l : Str} (h : trimL l = l) : trimL (trimR l) = trimR l := by
  have hdecomp : trimR l ++ (l.reverse.takeWhile jsIsWs).reverse = l := by
    rw [trimR, ← List.reverse_append, List.takeWhile_append_dropWhile, List.reverse_reverse]
  cases hR : trimR l with
  | nil => simp [trimL]
  | cons c u =>
    apply trimL_cons_of_not_ws
    rw [hR] at hdecomp
    have hl : l = c :: (u ++ (l.reverse.takeWhile jsIsWs).reverse) := by
      conv_lhs => rw [← hdecomp]
      simp
    rw [hl] at h
    exact head_not_ws_of_trimL h

theorem jsTrim_trimL (s : Str) : trimL (jsTrim s) = jsTrim s := by
  rw [jsTrim]
  exact trimL_trimR (trimL_trimL s)

theorem jsTrim_trimR (s : Str) : trimR (jsTrim s) = jsTrim s := trimR_trimR _

/-- `jsTrim` is idempotent: the texts the engine stores are already trimmed. -/
theorem jsTrim_idem (s : Str) : jsTrim (jsTrim s) = jsTrim s := by
  rw [jsTrim, jsTrim_trimL]
  exact jsTrim_trimR s

theorem jsTrim_eq_self_split {s : Str} (h : jsTrim s = s) : trimL s = s ∧ trimR s = s := by
  have h2 : (trimR (trimL s)).length ≤ (trimL s).length := trimR_length_le _
  have h3 : (trimL s).length ≤ s.length := trimL_length_le _
  have h4 : (jsTrim s).length = s.length := by rw [h]
  rw [jsTrim] at h4
  have h5 : (trimL s).length = s.length := by omega
  have hL : trimL s = s := dropWhile_eq_self_of_length h5
  refine ⟨hL, ?_⟩
  rw [jsTrim, hL] at h
  exact h

/-- Space-joining two trimmed non-empty strings yields a trimmed string: the
shape preserved by the continuation merge. -/
theorem jsTrim_join {a b : Str} (ha : a ≠ []) (hta : jsTrim a = a)
    (hb : b ≠ []) (htb : jsTrim b = b) : jsTrim (a ++ ' ' :: b) = a ++ ' ' :: b := by
  obtain ⟨hLa, _⟩ := jsTrim_eq_self_split hta
  obtain ⟨_, hRb⟩ := jsTrim_eq_self_split htb
  match a, ha with
  | c :: t, _ =>
    have hc : jsIsWs c = false := head_not_ws_of_trimL hLa
    have hb' : b.dropLast ++ [b.getLast hb] = b := List.dropLast_append_getLast hb
    have hd : jsIsWs (b.getLast hb) = false := by
      refine @last_not_ws_of_trimR (b.getLast hb) b.dropLast ?_
      rw [hb']
      exact hRb
    have key : (c :: t) ++ ' ' :: b = ((c :: t) ++ ' ' :: b.dropLast) ++ [b.getLast hb] := by
      conv_lhs => rw [← hb']
      simp
    rw [jsTrim, List.cons_append, trimL_cons_of_not_ws hc, ← List.cons_append, key,
      trimR_concat_of_not_ws hd]

/-! ### Lemmas: the second-pass step function -/

theorem findSpeaker_mem : ∀ {cat : List Character} {line : Str} {ch : Character},
    findSpeaker cat line = some ch → ch ∈ cat := by
  intro cat
  induction cat with
  | nil =>
    intro line ch h
    simp [findSpeaker] at h
  | cons c rest ih =>
    intro line ch h
    rw [findSpeaker] at h
    split at h
    · obtain rfl := Option.some.inj h
      exact List.mem_cons_self _ _
    · exact List.mem_cons_of_mem _ (ih h)

theorem appendLine_eq {st : PState} (hne : st.scenes ≠ []) (chId txt : Str) (dir : Bool) :
    appendLine st chId txt dir =
      some ⟨st.scenes.dropLast ++ [pushTo (st.scenes.getLast hne) (st.counter + 1) chId txt dir],
        st.current, st.counter + 1⟩ := by
  rw [appendLine, updateLast_eq hne]
  rfl

theorem appendLine_some {st : PState} {chId txt : Str} {dir : Bool} {st' : PState}
    (h : appendLine st chId txt dir = some st') :
    ∃ hne : st.scenes ≠ [],
      st' = ⟨st.scenes.dropLast ++ [pushTo (st.scenes.getLast hne) (st.counter + 1) chId txt dir],
          st.current, st.counter + 1⟩ := by
  have hne : st.scenes ≠ [] := by
    rw [appendLine] at h
    cases hu : updateLast (fun sc => pushTo sc (st.counter + 1) chId txt dir) st.scenes with
    | none => rw [hu] at h; simp at h
    | some l => exact updateLast_ne_nil hu
  refine ⟨hne, ?_⟩
  rw [appendLine_eq hne] at h
  exact (Option.some.inj h).symm

/-! Branch equations of `step`, one per control-flow path of the source loop. -/

theorem step_skip {cat : List Character} {st : PState} {raw : Str}
    (h0 : jsTrim raw = []) : step cat st raw = some st := by
  simp [step, h0]

theorem step_marker {cat : List Character} {st : PState} {raw : Str}
    (h0 : jsTrim raw ≠ []) (h1 : isSceneMarker (jsTrim raw) = true) :
    step cat st raw =
      some { st with scenes :=
        st.scenes ++ [⟨natStr (st.scenes.length + 1), jsTrim raw, []⟩] } := by
  simp [step, h1, List.length_eq_zero, h0]

theorem step_speaker_set {cat : List Character} {st : PState} {raw : Str} {ch : Character}
    (h0 : jsTrim raw ≠ []) (h1 : isSceneMarker (jsTrim raw) = false)
    (h2 : findSpeaker cat (jsTrim raw) = some ch)
    (h3 : jsTrim ((jsTrim raw).drop (ch.name.length + 1)) = []) :
    step cat st raw = some { st with current := some ch.id } := by
  simp [step, h1, h2, h3, List.length_eq_zero, h0]

theorem step_speaker_push {cat : List Character} {st : PState} {raw : Str} {ch : Character}
    (h0 : jsTrim raw ≠ []) (h1 : isSceneMarker (jsTrim raw) = false)
    (h2 : findSpeaker cat (jsTrim raw) = some ch)
    (h3 : jsTrim ((jsTrim raw).drop (ch.name.length + 1)) ≠ []) :
    step cat st raw =
      appendLine { st with current := some ch.id } ch.id
        (jsTrim ((jsTrim raw).drop (ch.name.length + 1))) false := by
  simp [step, h1, h2, List.length_eq_zero, h0, h3, List.length_pos]

theorem step_nocurrent {cat : List Character} {st : PState} {raw : Str}
    (h0 : jsTrim raw ≠ []) (h1 : isSceneMarker (jsTrim raw) = false)
    (h2 : findSpeaker cat (jsTrim raw) = none) (h3 : st.current = none) :
    step cat st raw = appendLine st (str "0") (jsTrim raw) true := by
  simp [step, h1, h2, h3, List.length_eq_zero, h0]

theorem step_direction {cat : List Character} {st : PState} {raw : Str} {cid : Str}
    (h0 : jsTrim raw ≠ []) (h1 : isSceneMarker (jsTrim raw) = false)
    (h2 : findSpeaker cat (jsTrim raw) = none) (h3 : st.current = some cid)
    (h4 : isSceneDirection (jsTrim raw) = true) :
    step cat st raw = appendLine st (str "0") (jsTrim raw) true := by
  simp [step, h1, h2, h3, h4, List.length_eq_zero, h0]

theorem step_merge {cat : List Character} {st : PState} {raw : Str} {cid : Str}
    {sc : Scene} {pl : Line}
    (h0 : jsTrim raw ≠ []) (h1 : isSceneMarker (jsTrim raw) = false)
    (h2 : findSpeaker cat (jsTrim raw) = none) (h3 : st.current = some cid)
    (h4 : isSceneDirection (jsTrim raw) = false)
    (h5 : st.scenes.getLast? = some sc) (h6 : sc.lines.getLast? = some pl)
    (h7 : pl.characterId = cid) :
    step cat st raw =
      (updateLast
          (fun s =>
            { s with lines :=
                (modifyLastTotal (fun l => { l with text := l.text ++ ' ' :: jsTrim raw })
                  s.lines) })
          st.scenes).map (fun scs => { st with scenes := scs }) := by
  simp [step, h1, h2, h3, h4, h5, h6, h7, List.length_eq_zero, h0]

theorem step_cont_dialogue {cat : List Character} {st : PState} {raw : Str} {cid : Str}
    {sc : Scene} {pl : Line}
    (h0 : jsTrim raw ≠ []) (h1 : isSceneMarker (jsTrim raw) = false)
    (h2 : findSpeaker cat (jsTrim raw) = none) (h3 : st.current = some cid)
    (h4 : isSceneDirection (jsTrim raw) = false)
    (h5 : st.scenes.getLast? = some sc) (h6 : sc.lines.getLast? = some pl)
    (h7 : pl.characterId ≠ cid) (h8 : looksLikeDialogue (jsTrim raw) = true) :
    step cat st raw = appendLine st cid (jsTrim raw) false := by
  simp [step, h1, h2, h3, h4, h5, h6, h7, h8, List.length_eq_zero, h0]

theorem step_cont_direction {cat : List Character} {st : PState} {raw : Str} {cid : Str}
    {sc : Scene} {pl : Line}
    (h0 : jsTrim raw ≠ []) (h1 : isSceneMarker (jsTrim raw) = false)
    (h2 : findSpeaker cat (jsTrim raw) = none) (h3 : st.current = some cid)
    (h4 : isSceneDirection (jsTrim raw) = false)
    (h5 : st.scenes.getLast? = some sc) (h6 : sc.lines.getLast? = some pl)
    (h7 : pl.characterId ≠ cid) (h8 : looksLikeDialogue (jsTrim raw) = false) :
    step cat st raw = appendLine st (str "0") (jsTrim raw) true := by
  simp [step, h1, h2, h3, h4, h5, h6, h7, h8, List.length_eq_zero, h0]

theorem step_fresh_dialogue {cat : List Character} {st : PState} {raw : Str} {cid : Str}
    {sc : Scene}
    (h0 : jsTrim raw ≠ []) (h1 : isSceneMarker (jsTrim raw) = false)
    (h2 : findSpeaker cat (jsTrim raw) = none) (h3 : st.current = some cid)
    (h4 : isSceneDirection (jsTrim raw) = false)
    (h5 : st.scenes.getLast? = some sc) (h6 : sc.lines.getLast? = none)
    (h8 : looksLikeDialogue (jsTrim raw) = true) :
    step cat st raw = appendLine st cid (jsTrim raw) false := by
  simp [step, h1, h2, h3, h4, h5, h6, h8, List.length_eq_zero, h0]

theorem step_fresh_direction {cat : List Character} {st : PState} {raw : Str} {cid : Str}
    {sc : Scene}
    (h0 : jsTrim raw ≠ []) (h1 : isSceneMarker (jsTrim raw) = false)
    (h2 : findSpeaker cat (jsTrim raw) = none) (h3 : st.current = some cid)
    (h4 : isSceneDirection (jsTrim raw) = false)
    (h5 : st.scenes.getLast? = some sc) (h6 : sc.lines.getLast? = none)
    (h8 : looksLikeDialogue (jsTrim raw) = false) :
    step cat st raw = appendLine st (str "0") (jsTrim raw) true := by
  simp [step, h1, h2, h3, h4, h5, h6, h8, List.length_eq_zero, h0]

theorem step_stuck {cat : List Character} {st : PState} {raw : Str} {cid : Str}
    (h0 : jsTrim raw ≠ []) (h1 : isSceneMarker (jsTrim raw) = false)
    (h2 : findSpeaker cat (jsTrim raw) = none) (h3 : st.current = some cid)
    (h4 : isSceneDirection (jsTrim raw) = false)
    (h5 : st.scenes.getLast? = none) :
    step cat st raw = none := by
  simp [step, h1, h2, h3, h4, h5, List.length_eq_zero, h0]

/-- Exhaustive characterisation of a successful `step`: the state is unchanged,
only the current speaker changes, a fresh empty scene is appended, one new line
is pushed onto the last scene, or the text of the last line of the last scene
is extended by the space-joined trimmed input line. -/
theorem step_shape {cat : List Character} {st : PState} {raw : Str} {st' : PState}
    (h : step cat st raw = some st') :
    st' = st ∨
    (∃ ch, ch ∈ cat ∧ st' = { st with current := some ch.id }) ∨
    st' = { st with scenes := st.scenes ++ [⟨natStr (st.scenes.length + 1), jsTrim raw, []⟩] } ∨
    (∃ hne : st.scenes ≠ [], ∃ chId txt dir cur,
      (chId = str "0" ∨ (∃ ch, ch ∈ cat ∧ chId = ch.id) ∨ st.current = some chId) ∧
      txt ≠ [] ∧ jsTrim txt = txt ∧
      (cur = st.current ∨ ∃ ch, ch ∈ cat ∧ cur = some ch.id) ∧
      st' = ⟨st.scenes.dropLast ++
          [pushTo (st.scenes.getLast hne) (st.counter + 1) chId txt dir],
        cur, st.counter + 1⟩) ∨
    (∃ scs, jsTrim raw ≠ [] ∧
      updateLast
          (fun s =>
            { s with lines :=
                (modifyLastTotal (fun l => { l with text := l.text ++ ' ' :: jsTrim raw })
                  s.lines) })
          st.scenes = some scs ∧
      st' = { st with scenes := scs }) := by
  by_cases hb0 : jsTrim raw = []
  · left
    rw [step_skip hb0] at h
    exact (Option.some.inj h).symm
  · by_cases hb1' : isSceneMarker (jsTrim raw) = true
    · right; right; left
      rw [step_marker hb0 hb1'] at h
      exact (Option.some.inj h).symm
    · have hb1 : isSceneMarker (jsTrim raw) = false := by
        cases hx : isSceneMarker (jsTrim raw)
        · rfl
        · exact absurd hx hb1'
      cases hfs : findSpeaker cat (jsTrim raw) with
      | some ch =>
        have hch := findSpeaker_mem hfs
        by_cases hdlg : jsTrim ((jsTrim raw).drop (ch.name.length + 1)) = []
        · right; left
          rw [step_speaker_set hb0 hb1 hfs hdlg] at h
          exact ⟨ch, hch, (Option.some.inj h).symm⟩
        · rw [step_speaker_push hb0 hb1 hfs hdlg] at h
          obtain ⟨hne, heq⟩ := appendLine_some h
          right; right; right; left
          exact ⟨hne, ch.id, _, false, some ch.id,
            Or.inr (Or.inl ⟨ch, hch, rfl⟩), hdlg, jsTrim_idem _,
            Or.inr ⟨ch, hch, rfl⟩, heq⟩
      | none =>
        cases hcur : st.current with
        | none =>
          rw [step_nocurrent hb0 hb1 hfs hcur] at h
          obtain ⟨hne, heq⟩ := appendLine_some h
          right; right; right; left
          exact ⟨hne, str "0", jsTrim raw, true, st.current,
            Or.inl rfl, hb0, jsTrim_idem _, Or.inl hcur, heq⟩
        | some cid =>
          by_cases hdir : isSceneDirection (jsTrim raw) = true
          · rw [step_direction hb0 hb1 hfs hcur hdir] at h
            obtain ⟨hne, heq⟩ := appendLine_some h
            right; right; right; left
            exact ⟨hne, str "0", jsTrim raw, true, st.current,
              Or.inl rfl, hb0, jsTrim_idem _, Or.inl hcur, heq⟩
          · have hdir' : isSceneDirection (jsTrim raw) = false := by
              cases hx : isSceneDirection (jsTrim raw)
              · rfl
              · exact absurd hx hdir
            cases hlast : st.scenes.getLast? with
            | none =>
              rw [step_stuck hb0 hb1 hfs hcur hdir' hlast] at h
              exact absurd h (by simp)
            | some sc =>
              have hne : st.scenes ≠ [] := by
                intro hx
                rw [hx] at hlast
                simp at hlast
              have hsc : sc = st.scenes.getLast hne := by
                have := List.getLast?_eq_getLast st.scenes hne
                rw [hlast] at this
                exact Option.some.inj this
              cases hpl : sc.lines.getLast? with
              | some pl =>
                by_cases hcid : pl.characterId = cid
                · rw [step_merge hb0 hb1 hfs hcur hdir' hlast hpl hcid] at h
                  right; right; right; right
                  cases hu : updateLast
                      (fun s =>
                        { s with lines :=
                            (modifyLastTotal
                              (fun l => { l with text := l.text ++ ' ' :: jsTrim raw })
                              s.lines) })
                      st.scenes with
                  | none =>
                    rw [hu] at h
                    simp at h
                  | some scs =>
                    rw [hu] at h
                    simp only [Option.map_some'] at h
                    refine ⟨scs, hb0, ?_, ?_⟩
                    · rfl
                    · rw [← Option.some.inj h, hcur]
                · by_cases hdl : looksLikeDialogue (jsTrim raw) = true
                  · rw [step_cont_dialogue hb0 hb1 hfs hcur hdir' hlast hpl hcid hdl] at h
                    obtain ⟨hne2, heq⟩ := appendLine_some h
                    right; right; right; left
                    exact ⟨hne2, cid, jsTrim raw, false, st.current,
                      Or.inr (Or.inr rfl), hb0, jsTrim_idem _, Or.inl hcur, heq⟩
                  · have hdl' : looksLikeDialogue (jsTrim raw) = false := by
                      cases hx : looksLikeDialogue (jsTrim raw)
                      · rfl
                      · exact absurd hx hdl
                    rw [step_cont_direction hb0 hb1 hfs hcur hdir' hlast hpl hcid hdl'] at h
                    obtain ⟨hne2, heq⟩ := appendLine_some h
                    right; right; right; left
                    exact ⟨hne2, str "0", jsTrim raw, true, st.current,
                      Or.inl rfl, hb0, jsTrim_idem _, Or.inl hcur, heq⟩
              | none =>
                by_cases hdl : looksLikeDialogue (jsTrim raw) = true
                · rw [step_fresh_dialogue hb0 hb1 hfs hcur hdir' hlast hpl hdl] at h
                  obtain ⟨hne2, heq⟩ := appendLine_some h
                  right; right; right; left
                  exact ⟨hne2, cid, jsTrim raw, false, st.current,
                    Or.inr (Or.inr rfl), hb0, jsTrim_idem _, Or.inl hcur, heq⟩
                · have hdl' : looksLikeDialogue (jsTrim raw) = false := by
                    cases hx : looksLikeDialogue (jsTrim raw)
                    · rfl
                    · exact absurd hx hdl
                  rw [step_fresh_direction hb0 hb1 hfs hcur hdir' hlast hpl hdl'] at h
                  obtain ⟨hne2, heq⟩ := appendLine_some h
                  right; right; right; left
                  exact ⟨hne2, str "0", jsTrim raw, true, st.current,
                    Or.inl rfl, hb0, jsTrim_idem _, Or.inl hcur, heq⟩

theorem updateLast_isSome {α : Type} (f : α → α) {l : List α} (h : l ≠ []) :
    (updateLast f l).isSome := by
  rw [@updateLast_eq _ f _ h]
  rfl

/-- With a non-empty scene list every step succeeds: this is the totality of
the loop body, i.e. the embedded engine hits no `undefined` dereference. -/
theorem step_isSome (cat : List Character) (st : PState) (raw : Str) (h : st.scenes ≠ []) :
    (step cat st raw).isSome := by
  have happ : ∀ st2 : PState, st2.scenes = st.scenes →
      ∀ (chId txt : Str) (dir : Bool), (appendLine st2 chId txt dir).isSome := by
    intro st2 hsc chId txt dir
    have hne : st2.scenes ≠ [] := by rw [hsc]; exact h
    rw [appendLine, updateLast_eq hne]
    rfl
  by_cases hb0 : jsTrim raw = []
  · rw [step_skip hb0]; rfl
  · by_cases hb1' : isSceneMarker (jsTrim raw) = true
    · rw [step_marker hb0 hb1']; rfl
    · have hb1 : isSceneMarker (jsTrim raw) = false := by
        cases hx : isSceneMarker (jsTrim raw)
        · rfl
        · exact absurd hx hb1'
      cases hfs : findSpeaker cat (jsTrim raw) with
      | some ch =>
        by_cases hdlg : jsTrim ((jsTrim raw).drop (ch.name.length + 1)) = []
        · rw [step_speaker_set hb0 hb1 hfs hdlg]; rfl
        · rw [step_speaker_push hb0 hb1 hfs hdlg]
          exact happ { st with current := some ch.id } rfl _ _ _
      | none =>
        cases hcur : st.current with
        | none =>
          rw [step_nocurrent hb0 hb1 hfs hcur]
          exact happ _ rfl _ _ _
        | some cid =>
          by_cases hdir : isSceneDirection (jsTrim raw) = true
          · rw [step_direction hb0 hb1 hfs hcur hdir]
            exact happ _ rfl _ _ _
          · have hdir' : isSceneDirection (jsTrim raw) = false := by
              cases hx : isSceneDirection (jsTrim raw)
              · rfl
              · exact absurd hx hdir
            cases hlast : st.scenes.getLast? with
            | none =>
              have := List.getLast?_eq_getLast st.scenes h
              rw [hlast] at this
              exact absurd this (by simp)
            | some sc =>
              cases hpl : sc.lines.getLast? with
              | some pl =>
                by_cases hcid : pl.characterId = cid
                · rw [step_merge hb0 hb1 hfs hcur hdir' hlast hpl hcid, updateLast_eq h]
                  rfl
                · by_cases hdl : looksLikeDialogue (jsTrim raw) = true
                  · rw [step_cont_dialogue hb0 hb1 hfs hcur hdir' hlast hpl hcid hdl]
                    exact happ _ rfl _ _ _
                  · have hdl' : looksLikeDialogue (jsTrim raw) = false := by
                      cases hx : looksLikeDialogue (jsTrim raw)
                      · rfl
                      · exact absurd hx hdl
                    rw [step_cont_direction hb0 hb1 hfs hcur hdir' hlast hpl hcid hdl']
                    exact happ _ rfl _ _ _
              | none =>
                by_cases hdl : looksLikeDialogue (jsTrim raw) = true
                · rw [step_fresh_dialogue hb0 hb1 hfs hcur hdir' hlast hpl hdl]
                  exact happ _ rfl _ _ _
                · have hdl' : looksLikeDialogue (jsTrim raw) = false := by
                    cases hx : looksLikeDialogue (jsTrim raw)
                    · rfl
                    · exact absurd hx hdl
                  rw [step_fresh_direction hb0 hb1 hfs hcur hdir' hlast hpl hdl']
                  exact happ _ rfl _ _ _

theorem step_scenes_ne_nil {cat : List Character} {st : PState} {raw : Str} {st' : PState}
    (h : st.scenes ≠ []) (hs : step cat st raw = some st') : st'.scenes ≠ [] := by
  rcases step_shape hs with rfl | ⟨ch, _, rfl⟩ | rfl | ⟨hne, chId, txt, dir, cur, _, _, _, _, rfl⟩ |
    ⟨scs, _, hu, rfl⟩
  · exact h
  · exact h
  · simp
  · simp
  · have hne := updateLast_ne_nil hu
    rw [updateLast_eq hne] at hu
    obtain rfl := Option.some.inj hu
    simp

/-- Propagate an invariant through the whole second pass. -/
theorem foldlM_inv (P : PState → Prop) {cat : List Character}
    (hstep : ∀ st raw st', P st → step cat st raw = some st' → P st') :
    ∀ {ls : List Str} {st st' : PState}, P st →
      List.foldlM (step cat) st ls = some st' → P st' := by
  intro ls
  induction ls with
  | nil =>
    intro st st' hP h
    rw [List.foldlM_nil] at h
    exact (Option.some.inj h) ▸ hP
  | cons l ls ih =>
    intro st st' hP h
    rw [List.foldlM_cons] at h
    cases hst : step cat st l with
    | none =>
      rw [hst] at h
      simp at h
    | some st1 =>
      rw [hst] at h
      have h' : List.foldlM (step cat) st1 ls = some st' := h
      exact ih (hstep st l st1 hP hst) h'

/-- The whole second pass succeeds from any state with a non-empty scene
list. -/
theorem foldlM_total (cat : List Character) :
    ∀ (ls : List Str) (st : PState), st.scenes ≠ [] →
      ∃ st', List.foldlM (step cat) st ls = some st' ∧ st'.scenes ≠ [] := by
  intro ls
  induction ls with
  | nil =>
    intro st h
    exact ⟨st, by rw [List.foldlM_nil]; rfl, h⟩
  | cons l ls ih =>
    intro st h
    obtain ⟨st1, hst1⟩ := Option.isSome_iff_exists.mp (step_isSome cat st l h)
    obtain ⟨st', hrun, hne⟩ := ih st1 (step_scenes_ne_nil h hst1)
    refine ⟨st', ?_, hne⟩
    rw [List.foldlM_cons, hst1]
    exact hrun

/-- The engine always returns a script. -/
theorem analyzeScriptTextE_isSome (raw : Str) : (analyzeScriptTextE raw).isSome := by
  obtain ⟨st', hrun, _⟩ :=
    foldlM_total (catalogOf (splitNl raw)) (splitNl raw) initState (by simp [initState])
  simp [analyzeScriptTextE, runLines, hrun]

/-! ### Lemmas: effect of a step on the flattened line list -/

theorem mem_modifyLastTotal {α : Type} {f : α → α} :
    ∀ {l : List α} {x : α}, x ∈ modifyLastTotal f l → x ∈ l ∨ ∃ y, y ∈ l ∧ x = f y := by
  intro l
  induction l with
  | nil => intro x hx; simp [modifyLastTotal] at hx
  | cons a t ih =>
    intro x hx
    cases t with
    | nil =>
      simp only [modifyLastTotal, List.mem_singleton] at hx
      exact Or.inr ⟨a, List.mem_singleton_self a, hx⟩
    | cons b u =>
      simp only [modifyLastTotal, List.mem_cons] at hx
      rcases hx with rfl | hx
      · exact Or.inl (List.mem_cons_self _ _)
      · rcases ih hx with h | ⟨y, hy, rfl⟩
        · exact Or.inl (List.mem_cons_of_mem _ h)
        · exact Or.inr ⟨y, List.mem_cons_of_mem _ hy, rfl⟩

theorem map_modifyLastTotal {α β : Type} (f : α → α) (g : α → β)
    (hfg : ∀ a, g (f a) = g a) :
    ∀ l : List α, (modifyLastTotal f l).map g = l.map g := by
  intro l
  induction l with
  | nil => rfl
  | cons a t ih =>
    cases t with
    | nil => simp [modifyLastTotal, hfg]
    | cons b u => simpa [modifyLastTotal] using ih

theorem allLines_push {scs : List Scene} (hne : scs ≠ []) (n : Nat) (chId txt : Str)
    (dir : Bool) :
    allLines (scs.dropLast ++ [pushTo (scs.getLast hne) n chId txt dir]) =
      allLines scs ++ [⟨natStr n, chId, txt, (scs.getLast hne).id, dir⟩] := by
  conv_rhs => rw [allLines_dropLast hne]
  simp [allLines_append, allLines, pushTo]

theorem allLines_modify {scs : List Scene} (hne : scs ≠ []) (f : Line → Line) :
    allLines (scs.dropLast ++
        [{ scs.getLast hne with lines := modifyLastTotal f (scs.getLast hne).lines }]) =
      allLines scs.dropLast ++ modifyLastTotal f (scs.getLast hne).lines := by
  simp [allLines_append, allLines]

/-! ### Lemmas: the character-id invariant of the second pass -/

theorem step_charIds {cat : List Character} {st : PState} {raw : Str} {st' : PState}
    (hstep : step cat st raw = some st')
    (hl : ∀ l ∈ allLines st.scenes,
      l.characterId = str "0" ∨ l.characterId ∈ cat.map Character.id)
    (hc : ∀ c, st.current = some c → c ∈ cat.map Character.id) :
    (∀ l ∈ allLines st'.scenes,
      l.characterId = str "0" ∨ l.characterId ∈ cat.map Character.id) ∧
    (∀ c, st'.current = some c → c ∈ cat.map Character.id) := by
  rcases step_shape hstep with rfl | ⟨ch, hch, rfl⟩ | rfl |
    ⟨hne, chId, txt, dir, cur, hid, htxt, htr, hcur, rfl⟩ | ⟨scs, hb0, hu, rfl⟩
  · exact ⟨hl, hc⟩
  · refine ⟨hl, ?_⟩
    intro c hcu
    obtain rfl := Option.some.inj hcu
    exact List.mem_map_of_mem Character.id hch
  · refine ⟨?_, hc⟩
    intro l hlmem
    rw [allLines_append] at hlmem
    rcases List.mem_append.mp hlmem with hmem | hmem
    · exact hl l hmem
    · simp [allLines] at hmem
  · constructor
    · intro l hlmem
      rw [allLines_push hne] at hlmem
      rcases List.mem_append.mp hlmem with hmem | hmem
      · exact hl l hmem
      · obtain rfl := List.mem_singleton.mp hmem
        rcases hid with rfl | ⟨ch, hch, rfl⟩ | hidc
        · exact Or.inl rfl
        · exact Or.inr (List.mem_map_of_mem Character.id hch)
        · exact Or.inr (hc chId hidc)
    · intro c hcu
      rcases hcur with heq | ⟨ch, hch, heq⟩
      · exact hc c (by rw [← heq]; exact hcu)
      · rw [heq] at hcu
        obtain rfl := Option.some.inj hcu
        exact List.mem_map_of_mem Character.id hch
  · have hne := updateLast_ne_nil hu
    rw [updateLast_eq hne] at hu
    obtain rfl := Option.some.inj hu
    refine ⟨?_, hc⟩
    intro l hlmem
    have hmod := allLines_modify hne
      (fun l => { l with text := l.text ++ ' ' :: jsTrim raw })
    simp only at hmod
    rw [hmod] at hlmem
    rcases List.mem_append.mp hlmem with hmem | hmem
    · apply hl
      rw [allLines_dropLast hne]
      exact List.mem_append.mpr (Or.inl hmem)
    · have hsub : ∀ y ∈ (st.scenes.getLast hne).lines, y ∈ allLines st.scenes := by
        intro y hy
        rw [allLines_dropLast hne]
        exact List.mem_append.mpr (Or.inr hy)
      rcases mem_modifyLastTotal hmem with hmem' | ⟨y, hy, rfl⟩
      · exact hl l (hsub l hmem')
      · exact hl y (hsub y hy)

theorem runLines_charIds {cat : List Character} {ls : List Str} {st' : PState}
    (h : runLines cat ls = some st') :
    ∀ l ∈ allLines st'.scenes,
      l.characterId = str "0" ∨ l.characterId ∈ cat.map Character.id := by
  have hinv := foldlM_inv
    (fun st => (∀ l ∈ allLines st.scenes,
        l.characterId = str "0" ∨ l.characterId ∈ cat.map Character.id) ∧
      (∀ c, st.current = some c → c ∈ cat.map Character.id))
    (fun st raw st' hP hs => step_charIds hs hP.1 hP.2)
    (by constructor
        · intro l hl
          simp [initState, allLines] at hl
        · intro c hc
          simp [initState] at hc)
    h
  exact hinv.1

/-! ### Lemmas: the character catalog -/

theorem length_insertDesc (x : Str × Nat) (l : List (Str × Nat)) :
    (insertDesc x l).length = l.length + 1 := by
  induction l with
  | nil => rfl
  | cons y ys ih =>
    by_cases h : y.2 < x.2
    · simp [insertDesc, h]
    · simp [insertDesc, h, ih]

theorem length_sortDesc (l : List (Str × Nat)) : (sortDesc l).length = l.length := by
  suffices h : ∀ acc : List (Str × Nat),
      (l.foldl (fun acc x => insertDesc x acc) acc).length = acc.length + l.length by
    simpa [sortDesc] using h []
  induction l with
  | nil => intro acc; simp
  | cons x xs ih =>
    intro acc
    rw [List.foldl_cons, ih (insertDesc x acc), length_insertDesc]
    simp
    omega

theorem buildCatalog_length : ∀ (i : Nat) (l : List (Str × Nat)),
    (buildCatalog i l).length = l.length := by
  intro i l
  induction l generalizing i with
  | nil => rfl
  | cons p rest ih => simp [buildCatalog, ih]

theorem buildCatalog_ids : ∀ (i : Nat) (l : List (Str × Nat)),
    (buildCatalog i l).map Character.id =
      (List.range l.length).map (fun k => natStr (i + k + 1)) := by
  intro i l
  induction l generalizing i with
  | nil => rfl
  | cons p rest ih =>
    rw [List.length_cons, List.range_succ_eq_map]
    simp only [buildCatalog, List.map_cons, List.map_map, ih (i + 1)]
    refine List.cons_eq_cons.mpr ⟨by simp, ?_⟩
    apply List.map_congr_left
    intro k hk
    simp only [Function.comp_apply]
    congr 1
    omega

theorem buildCatalog_names : ∀ (i : Nat) (l : List (Str × Nat)),
    (buildCatalog i l).map Character.name = l.map Prod.fst := by
  intro i l
  induction l generalizing i with
  | nil => rfl
  | cons p rest ih => simp [buildCatalog, ih]

theorem mem_catalog_id_ne_zero {lines : List Str} {ch : Character}
    (h : ch ∈ catalogOf lines) : ch.id ≠ str "0" := by
  have hid : ch.id ∈ (catalogOf lines).map Character.id := List.mem_map_of_mem Character.id h
  rw [catalogOf, buildCatalog_ids] at hid
  obtain ⟨k, _, hk⟩ := List.mem_map.mp hid
  rw [← hk]
  simpa using natStr_succ_ne_zero k

theorem catalogOf_eq_nil_iff (lines : List Str) :
    catalogOf lines = [] ↔ qualifying lines = [] := by
  constructor
  · intro h
    have hlen := congrArg List.length h
    rw [catalogOf, buildCatalog_length, likelyCharacters, length_sortDesc] at hlen
    exact List.length_eq_zero.mp hlen
  · intro h
    rw [catalogOf, likelyCharacters, h]
    rfl

/-- Destructure a successful run of the engine. -/
theorem analyzeScriptTextE_eq {raw : Str} {sc : Script}
    (h : analyzeScriptTextE raw = some sc) :
    ∃ st', runLines (catalogOf (splitNl raw)) (splitNl raw) = some st' ∧
      sc = ⟨extractScriptTitle raw (splitNl raw), catalogOf (splitNl raw), st'.scenes⟩ := by
  simp only [analyzeScriptTextE] at h
  cases hrun : runLines (catalogOf (splitNl raw)) (splitNl raw) with
  | none =>
    rw [hrun] at h
    simp at h
  | some st' =>
    rw [hrun] at h
    simp only [Option.map_some'] at h
    exact ⟨st', rfl, (Option.some.inj h).symm⟩

theorem analyzeScriptTextE_parts {raw : Str} {sc : Script}
    (h : analyzeScriptTextE raw = some sc) :
    ∃ st', runLines (catalogOf (splitNl raw)) (splitNl raw) = some st' ∧
      sc.title = extractScriptTitle raw (splitNl raw) ∧
      sc.characters = catalogOf (splitNl raw) ∧ sc.scenes = st'.scenes := by
  obtain ⟨st', hrun, rfl⟩ := analyzeScriptTextE_eq h
  exact ⟨st', hrun, rfl, rfl, rfl⟩

/-- Claim C1: for every input string the structuring engine returns a Script
value (it never fails: the embedding returns `some` on all input); the
character list is empty exactly when the catalog builder found zero
qualifying speakers, and in that degenerate case every emitted Line is
classified under the sentinel character `"0"`. -/
theorem claimC1 (raw : Str) :
    ∃ sc, analyzeScriptTextE raw = some sc ∧
      (sc.characters = [] ↔ qualifying (splitNl raw) = []) ∧
      (sc.characters = [] → ∀ l ∈ allLines sc.scenes, l.characterId = str "0") := by
  obtain ⟨sc, hsc⟩ := Option.isSome_iff_exists.mp (analyzeScriptTextE_isSome raw)
  obtain ⟨st', hrun, htitle, hchars, hscenes⟩ := analyzeScriptTextE_parts hsc
  refine ⟨sc, hsc, by rw [hchars]; exact catalogOf_eq_nil_iff _, ?_⟩
  intro hempty l hl
  rw [hscenes] at hl
  rcases runLines_charIds hrun l hl with h0 | hmem
  · exact h0
  · rw [hchars] at hempty
    rw [hempty] at hmem
    simp at hmem

/-- Claim C4: every emitted Line's characterId is either the sentinel `"0"` or
the id of a Character present in the script's character list, and `"0"` is
never the id of a cataloged Character. -/
theorem claimC4 (raw : Str) (sc : Script) (h : analyzeScriptTextE raw = some sc) :
    (∀ l ∈ allLines sc.scenes,
      l.characterId = str "0" ∨ ∃ ch ∈ sc.characters, ch.id = l.characterId) ∧
    (∀ ch ∈ sc.characters, ch.id ≠ str "0") := by
  obtain ⟨st', hrun, htitle, hchars, hscenes⟩ := analyzeScriptTextE_parts h
  constructor
  · intro l hl
    rw [hscenes] at hl
    rcases runLines_charIds hrun l hl with h0 | hmem
    · exact Or.inl h0
    · obtain ⟨ch, hch, hid⟩ := List.mem_map.mp hmem
      rw [hchars]
      exact Or.inr ⟨ch, hch, hid⟩
  · intro ch hch
    rw [hchars] at hch
    exact mem_catalog_id_ne_zero hch

theorem allLines_modify_map {β : Type} {scs : List Scene} (hne : scs ≠ [])
    (f : Line → Line) (g : Line → β) (hfg : ∀ a, g (f a) = g a) :
    (allLines (scs.dropLast ++
      [{ scs.getLast hne with lines := modifyLastTotal f (scs.getLast hne).lines }])).map g =
    (allLines scs).map g := by
  rw [allLines_modify hne, List.map_append, map_modifyLastTotal f g hfg]
  conv_rhs => rw [allLines_dropLast hne]
  rw [List.map_append]

theorem step_ids {cat : List Character} {st : PState} {raw : Str} {st' : PState}
    (hstep : step cat st raw = some st')
    (hids : (allLines st.scenes).map Line.id =
      (List.range st.counter).map (fun i => natStr (i + 1))) :
    (allLines st'.scenes).map Line.id =
      (List.range st'.counter).map (fun i => natStr (i + 1)) := by
  rcases step_shape hstep with rfl | ⟨ch, hch, rfl⟩ | rfl |
    ⟨hne, chId, txt, dir, cur, hid, htxt, htr, hcur, rfl⟩ | ⟨scs, hb0, hu, rfl⟩
  · exact hids
  · exact hids
  · dsimp only
    simpa [allLines_append, allLines] using hids
  · dsimp only
    rw [allLines_push hne, List.map_append, hids, List.range_succ]
    simp
  · have hne := updateLast_ne_nil hu
    rw [updateLast_eq hne] at hu
    obtain rfl := Option.some.inj hu
    dsimp only
    rw [allLines_modify_map hne (fun l => { l with text := l.text ++ ' ' :: jsTrim raw })
      Line.id (fun a => rfl)]
    exact hids

theorem runLines_ids {cat : List Character} {ls : List Str} {st' : PState}
    (h : runLines cat ls = some st') :
    (allLines st'.scenes).map Line.id =
      (List.range st'.counter).map (fun i => natStr (i + 1)) :=
  foldlM_inv
    (fun st => (allLines st.scenes).map Line.id =
      (List.range st.counter).map (fun i => natStr (i + 1)))
    (fun st raw st1 hP hs => step_ids hs hP)
    (by simp [initState, allLines]) h

theorem runLines_scenes_ne_nil {cat : List Character} {ls : List Str} {st' : PState}
    (h : runLines cat ls = some st') : st'.scenes ≠ [] :=
  foldlM_inv (fun st => st.scenes ≠ [])
    (fun st raw st1 hP hs => step_scenes_ne_nil hP hs)
    (by simp [initState]) h

/-- Claim C2: for every input the returned Script has a non-empty scene list,
and the ids of all emitted Lines in document order are exactly the decimal
strings of 1, 2, 3, …, strictly increasing by one from 1, regardless of the
number of scenes. -/
theorem claimC2 (raw : Str) (sc : Script) (h : analyzeScriptTextE raw = some sc) :
    sc.scenes ≠ [] ∧ ∃ n, (allLines sc.scenes).map Line.id =
      (List.range n).map (fun i => natStr (i + 1)) := by
  obtain ⟨st', hrun, htitle, hchars, hscenes⟩ := analyzeScriptTextE_parts h
  refine ⟨by rw [hscenes]; exact runLines_scenes_ne_nil hrun, st'.counter, ?_⟩
  rw [hscenes]
  exact runLines_ids hrun

/-! ### Lemmas: the stable descending sort of the catalog builder -/

theorem mem_insertDesc {x z : Str × Nat} : ∀ {l : List (Str × Nat)},
    z ∈ insertDesc x l ↔ z = x ∨ z ∈ l := by
  intro l
  induction l with
  | nil => simp [insertDesc]
  | cons y ys ih =>
    by_cases hc : y.2 < x.2
    · rw [insertDesc, if_pos hc]
      simp
    · rw [insertDesc, if_neg hc]
      simp only [List.mem_cons, ih]
      tauto

theorem insertDesc_sorted {x : Str × Nat} : ∀ {l : List (Str × Nat)},
    l.Pairwise (fun p q => q.2 ≤ p.2) →
    (insertDesc x l).Pairwise (fun p q => q.2 ≤ p.2) := by
  intro l
  induction l with
  | nil =>
    intro _
    simp [insertDesc]
  | cons y ys ih =>
    intro h
    rw [List.pairwise_cons] at h
    obtain ⟨hy, hys⟩ := h
    by_cases hc : y.2 < x.2
    · rw [insertDesc, if_pos hc]
      refine List.Pairwise.cons ?_ (List.Pairwise.cons hy hys)
      intro z hz
      rcases List.mem_cons.mp hz with rfl | hz
      · omega
      · have := hy z hz
        omega
    · rw [insertDesc, if_neg hc]
      refine List.Pairwise.cons ?_ (ih hys)
      intro z hz
      rcases mem_insertDesc.mp hz with rfl | hz
      · omega
      · exact hy z hz

theorem insertDesc_filter {x : Str × Nat} {c : Nat} : ∀ {l : List (Str × Nat)},
    l.Pairwise (fun p q => q.2 ≤ p.2) →
    (insertDesc x l).filter (fun p => p.2 == c) =
      if x.2 = c then l.filter (fun p => p.2 == c) ++ [x]
      else l.filter (fun p => p.2 == c) := by
  intro l
  induction l with
  | nil =>
    intro _
    by_cases hx : x.2 = c
    · simp [insertDesc, List.filter_cons, hx]
    · simp [insertDesc, List.filter_cons, hx]
  | cons y ys ih =>
    intro h
    rw [List.pairwise_cons] at h
    obtain ⟨hy, hys⟩ := h
    by_cases hc : y.2 < x.2
    · rw [insertDesc, if_pos hc]
      by_cases hx : x.2 = c
      · have hnil : (y :: ys).filter (fun p => p.2 == c) = [] := by
          rw [List.filter_eq_nil_iff]
          intro z hz
          rcases List.mem_cons.mp hz with rfl | hz
          · simp only [beq_iff_eq]
            omega
          · have := hy z hz
            simp only [beq_iff_eq]
            omega
        rw [List.filter_cons, hnil]
        simp [hx]
      · rw [List.filter_cons]
        simp [hx]
    · rw [insertDesc, if_neg hc]
      by_cases hy2 : y.2 = c
      · by_cases hx : x.2 = c
        · simp [List.filter_cons, hy2, ih hys, hx]
        · simp [List.filter_cons, hy2, ih hys, hx]
      · by_cases hx : x.2 = c
        · simp [List.filter_cons, hy2, ih hys, hx]
        · simp [List.filter_cons, hy2, ih hys, hx]

theorem sortDesc_go_sorted : ∀ (l acc : List (Str × Nat)),
    acc.Pairwise (fun p q => q.2 ≤ p.2) →
    (l.foldl (fun acc x => insertDesc x acc) acc).Pairwise (fun p q => q.2 ≤ p.2) := by
  intro l
  induction l with
  | nil =>
    intro acc h
    simpa using h
  | cons x xs ih =>
    intro acc h
    rw [List.foldl_cons]
    exact ih (insertDesc x acc) (insertDesc_sorted h)

/-- The modelled JavaScript sort is sorted by descending count. -/
theorem sortDesc_sorted (l : List (Str × Nat)) :
    (sortDesc l).Pairwise (fun p q => q.2 ≤ p.2) :=
  sortDesc_go_sorted l [] (by simp)

theorem sortDesc_go_filter (c : Nat) : ∀ (l acc : List (Str × Nat)),
    acc.Pairwise (fun p q => q.2 ≤ p.2) →
    (l.foldl (fun acc x => insertDesc x acc) acc).filter (fun p => p.2 == c) =
      acc.filter (fun p => p.2 == c) ++ l.filter (fun p => p.2 == c) := by
  intro l
  induction l with
  | nil =>
    intro acc h
    simp
  | cons x xs ih =>
    intro acc h
    rw [List.foldl_cons, ih (insertDesc x acc) (insertDesc_sorted h),
      insertDesc_filter h, List.filter_cons]
    by_cases hx : x.2 = c
    · simp [hx]
    · simp [hx]

/-- Stability of the modelled JavaScript sort: within each count class the
first-seen order of the tally is preserved. -/
theorem sortDesc_filter (l : List (Str × Nat)) (c : Nat) :
    (sortDesc l).filter (fun p => p.2 == c) = l.filter (fun p => p.2 == c) := by
  have h := sortDesc_go_filter c l [] (by simp)
  simpa [sortDesc] using h

theorem mem_sortDesc {p : Str × Nat} {l : List (Str × Nat)} :
    p ∈ sortDesc l ↔ p ∈ l := by
  constructor
  · intro h
    have hf : p ∈ (sortDesc l).filter (fun q => q.2 == p.2) :=
      List.mem_filter.mpr ⟨h, by simp⟩
    rw [sortDesc_filter] at hf
    exact (List.mem_filter.mp hf).1
  · intro h
    have hf : p ∈ l.filter (fun q => q.2 == p.2) :=
      List.mem_filter.mpr ⟨h, by simp⟩
    rw [← sortDesc_filter] at hf
    exact (List.mem_filter.mp hf).1

/-! ### Lemmas: keys of the mention tally -/

theorem bump_keys (m : List (Str × Nat)) (name : Str) :
    (bump m name).map Prod.fst =
      if name ∈ m.map Prod.fst then m.map Prod.fst else m.map Prod.fst ++ [name] := by
  induction m with
  | nil => simp [bump]
  | cons p rest ih =>
    obtain ⟨k, v⟩ := p
    by_cases hk : k = name
    · subst hk
      simp [bump]
    · by_cases hm : name ∈ rest.map Prod.fst
      · simp [bump, hk, ih, hm, Ne.symm hk]
      · simp [bump, hk, ih, hm, Ne.symm hk]

theorem nodup_keys_bump {m : List (Str × Nat)} (h : (m.map Prod.fst).Nodup) (name : Str) :
    ((bump m name).map Prod.fst).Nodup := by
  rw [bump_keys]
  by_cases hm : name ∈ m.map Prod.fst
  · simpa [hm] using h
  · simp only [hm, if_false]
    simp [List.nodup_append, h, hm]

theorem nodup_keys_foldl_bump : ∀ (names : List Str) (m : List (Str × Nat)),
    (m.map Prod.fst).Nodup → (((names.foldl bump m)).map Prod.fst).Nodup := by
  intro names
  induction names with
  | nil =>
    intro m h
    simpa using h
  | cons n ns ih =>
    intro m h
    rw [List.foldl_cons]
    exact ih (bump m n) (nodup_keys_bump h n)

theorem nodup_keys_tallyOf (lines : List Str) : ((tallyOf lines).map Prod.fst).Nodup := by
  suffices hgen : ∀ (ls : List Str) (m : List (Str × Nat)), (m.map Prod.fst).Nodup →
      ((ls.foldl (fun m line => (lineMentions line).foldl bump m) m).map Prod.fst).Nodup by
    exact hgen lines [] (by simp)
  intro ls
  induction ls with
  | nil =>
    intro m h
    simpa using h
  | cons l rest ih =>
    intro m h
    rw [List.foldl_cons]
    exact ih _ (nodup_keys_foldl_bump (lineMentions l) m h)

theorem assoc_unique : ∀ {m : List (Str × Nat)}, (m.map Prod.fst).Nodup →
    ∀ {a : Str} {b c : Nat}, (a, b) ∈ m → (a, c) ∈ m → b = c := by
  intro m
  induction m with
  | nil =>
    intro _ a b c h1 _
    simp at h1
  | cons p rest ih =>
    intro h a b c h1 h2
    rw [List.map_cons, List.nodup_cons] at h
    obtain ⟨hp, hrest⟩ := h
    rcases List.mem_cons.mp h1 with rfl | h1r
    · rcases List.mem_cons.mp h2 with heq2 | h2r
      · injection heq2 with ha hb
        exact hb.symm
      · exact absurd (List.mem_map.mpr ⟨(a, c), h2r, rfl⟩) hp
    · rcases List.mem_cons.mp h2 with rfl | h2r
      · exact absurd (List.mem_map.mpr ⟨(a, b), h1r, rfl⟩) hp
      · exact ih hrest h1r h2r

/-- Claim C3: the character catalog holds exactly the detected names of tally
at least two (after the length/stop-list filters applied during detection),
in descending-tally order with ties in first-seen order, with ids assigned
positionally as `"1", "2", …`; a name tallied exactly once never appears. -/
theorem claimC3 (raw : Str) (sc : Script) (h : analyzeScriptTextE raw = some sc) :
    sc.characters.map Character.name = (likelyCharacters (splitNl raw)).map Prod.fst ∧
    (likelyCharacters (splitNl raw)).Pairwise (fun p q => q.2 ≤ p.2) ∧
    (∀ c, (likelyCharacters (splitNl raw)).filter (fun p => p.2 == c) =
      (qualifying (splitNl raw)).filter (fun p => p.2 == c)) ∧
    sc.characters.map Character.id =
      (List.range sc.characters.length).map (fun i => natStr (i + 1)) ∧
    (∀ n, n ∈ sc.characters.map Character.name ↔
      ∃ cnt, (n, cnt) ∈ tallyOf (splitNl raw) ∧ 2 ≤ cnt) ∧
    (∀ n, (n, 1) ∈ tallyOf (splitNl raw) → n ∉ sc.characters.map Character.name) := by
  obtain ⟨st', hrun, htitle, hchars, hscenes⟩ := analyzeScriptTextE_parts h
  have hnames : sc.characters.map Character.name =
      (likelyCharacters (splitNl raw)).map Prod.fst := by
    rw [hchars, catalogOf, buildCatalog_names]
  have hmemn : ∀ n, n ∈ sc.characters.map Character.name ↔
      ∃ cnt, (n, cnt) ∈ tallyOf (splitNl raw) ∧ 2 ≤ cnt := by
    intro n
    rw [hnames]
    constructor
    · intro hn
      obtain ⟨p, hp, hpn⟩ := List.mem_map.mp hn
      have hpk : p ∈ qualifying (splitNl raw) := mem_sortDesc.mp hp
      rw [qualifying] at hpk
      obtain ⟨hpt, hp2⟩ := List.mem_filter.mp hpk
      refine ⟨p.2, ?_, by simpa using hp2⟩
      rw [← hpn]
      exact hpt
    · intro ⟨cnt, hmem, h2⟩
      apply List.mem_map.mpr
      refine ⟨(n, cnt), ?_, rfl⟩
      apply mem_sortDesc.mpr
      rw [qualifying]
      exact List.mem_filter.mpr ⟨hmem, by simpa using h2⟩
  refine ⟨hnames, sortDesc_sorted _, fun c => sortDesc_filter _ c, ?_, hmemn, ?_⟩
  · rw [hchars, catalogOf, buildCatalog_ids, buildCatalog_length]
    apply List.map_congr_left
    intro k hk
    congr 1
    omega
  · intro n h1 hn
    obtain ⟨cnt, hmem, h2⟩ := (hmemn n).mp hn
    have := assoc_unique (nodup_keys_tallyOf (splitNl raw)) h1 hmem
    omega

/-! ### Lemmas: the global scan runs to completion for any sufficient fuel -/

theorem gmScanGo_congr : ∀ (fuel1 : Nat), ∀ {s : Str} (fuel2 : Nat),
    s.length < fuel1 → s.length < fuel2 → gmScanGo fuel1 s = gmScanGo fuel2 s := by
  intro fuel1
  induction fuel1 with
  | zero =>
    intro s fuel2 h1 _
    omega
  | succ f1 ih =>
    intro s fuel2 h1 h2
    cases fuel2 with
    | zero => omega
    | succ f2 =>
      rw [gmScanGo, gmScanGo]
      cases hm : tryMatch s with
      | some p =>
        obtain ⟨cap, after⟩ := p
        dsimp only
        have hlen := tryMatch_length hm
        have hle := skipLine_length_le after
        exact congrArg (List.cons cap) (ih f2 (by omega) (by omega))
      | none =>
        cases s with
        | nil => rfl
        | cons c rest =>
          dsimp only
          simp only [List.isEmpty_cons, Bool.false_eq_true, if_false]
          have hlt := @skipLine_length_lt (c :: rest) (by simp)
          simp only [List.length_cons] at hlt h1 h2
          exact ih f2 (by omega) (by omega)

/-! ### Lemmas: title extraction -/

theorem collectCands_eq : ∀ (ls : List Str) (f : Nat) (acc : List Str), acc.length < 2 →
    collectCands ls f acc = (acc ++ ((ls.take f).map jsTrim).filter goodCand).take 2 := by
  intro ls
  induction ls with
  | nil =>
    intro f acc h
    cases f with
    | zero => simp [collectCands, List.take_of_length_le (by omega : acc.length ≤ 2)]
    | succ f2 => simp [collectCands, List.take_of_length_le (by omega : acc.length ≤ 2)]
  | cons l rest ih =>
    intro f acc hlen
    cases f with
    | zero => simp [collectCands, List.take_of_length_le (by omega : acc.length ≤ 2)]
    | succ f2 =>
      rw [collectCands]
      by_cases hg : goodCand (jsTrim l) = true
      · simp only [hg, if_true]
        by_cases h2 : (acc ++ [jsTrim l]).length ≥ 2
        · rw [if_pos h2]
          have hlen2 : (acc ++ [jsTrim l]).length = 2 := by
            simp only [List.length_append, List.length_cons, List.length_nil] at h2 ⊢
            omega
          simp only [List.take_succ_cons, List.map_cons, List.filter_cons, hg, if_true]
          rw [show acc ++ jsTrim l :: ((rest.take f2).map jsTrim).filter goodCand =
            (acc ++ [jsTrim l]) ++ ((rest.take f2).map jsTrim).filter goodCand by simp]
          rw [List.take_left' hlen2]
        · rw [if_neg h2]
          rw [ih f2 (acc ++ [jsTrim l])
            (by simp only [List.length_append, List.length_cons, List.length_nil] at h2 ⊢
                omega)]
          simp only [List.take_succ_cons, List.map_cons, List.filter_cons, hg, if_true]
          simp
      · have hg2 : goodCand (jsTrim l) = false := by
          cases hx : goodCand (jsTrim l)
          · rfl
          · exact absurd hx hg
        simp only [hg2, Bool.false_eq_true, if_false]
        rw [if_neg (by omega)]
        rw [ih f2 acc hlen]
        simp only [List.take_succ_cons, List.map_cons, List.filter_cons, hg2,
          Bool.false_eq_true, if_false]

/-- Claim C7: the title extractor collects up to two candidates (trimmed,
non-empty, shorter than 60 characters, colon-free) from the first ten lines;
with two candidates it prefers the second exactly when the second is entirely
uppercase and the first is not; with one it returns it; with none it falls
back to the filename-like suffix of the first 100 characters (underscores
and hyphens turned into spaces) and finally to the fixed placeholder. -/
theorem claimC7 (raw : Str) (lines : List Str) :
    ((((lines.take 10).map jsTrim).filter goodCand).take 2 = [] →
      extractScriptTitle raw lines = fallbackTitle raw) ∧
    (∀ c, (((lines.take 10).map jsTrim).filter goodCand).take 2 = [c] →
      extractScriptTitle raw lines = c) ∧
    (∀ c1 c2, (((lines.take 10).map jsTrim).filter goodCand).take 2 = [c1, c2] →
      extractScriptTitle raw lines = if allUpper c2 && !allUpper c1 then c2 else c1) ∧
    (fileNameMatch (raw.take 100) = none → fallbackTitle raw = str "Copione Importato") ∧
    (∀ nm, fileNameMatch (raw.take 100) = some nm → fallbackTitle raw = nm.map sepToSpace) := by
  have hc : collectCands lines 10 [] = (((lines.take 10).map jsTrim).filter goodCand).take 2 :=
    collectCands_eq lines 10 [] (by simp)
  refine ⟨?_, ?_, ?_, ?_, ?_⟩
  · intro h
    simp only [extractScriptTitle, hc, h]
  · intro c h
    simp only [extractScriptTitle, hc, h]
  · intro c1 c2 h
    simp only [extractScriptTitle, hc, h]
  · intro h
    simp only [fallbackTitle, h]
  · intro nm h
    simp only [fallbackTitle, h]

/-- Claim C8 (amended): the estimator reports the number of matches of the
global multiline `NAME:` pattern (a match may span a line break, so this is
not in general the number of matching lines), the distinct trimmed matched
names in first-seen order, their count, and the likelihood verdict
match-count > 3 and distinct-name-count ≥ 2. -/
theorem claimC8_amended (text : Str) :
    (detectScriptStructure text).dialogueLines = (gmScan text).length ∧
    (detectScriptStructure text).characterNames = dedupFirst ((gmScan text).map jsTrim) ∧
    (detectScriptStructure text).characterCount =
      (dedupFirst ((gmScan text).map jsTrim)).length ∧
    ((detectScriptStructure text).isLikelyScript = true ↔
      3 < (gmScan text).length ∧
        2 ≤ (dedupFirst ((gmScan text).map jsTrim)).length) := by
  refine ⟨?_, rfl, rfl, ?_⟩
  · simp [detectScriptStructure]
  · simp [detectScriptStructure]

/-- Claim C8 (counterexample): on `"A \nB: x"` the multiline pattern matches
once, spanning the line break (matched name `"A \nB"`), while no single line
of the text matches the `NAME:` pattern: the reported dialogue-line count is
not the count of matching lines. -/
theorem claimC8_counterexample :
    (detectScriptStructure (str "A \nB: x")).dialogueLines = 1 ∧
    ((splitNl (str "A \nB: x")).filter (fun l => (tryMatch l).isSome)).length = 0 ∧
    (detectScriptStructure (str "A \nB: x")).characterNames = [str "A \nB"] := by
  exact ⟨rfl, rfl, rfl⟩

/-! ### Lemmas: the trimmed-text invariant of stored lines -/

theorem step_texts {cat : List Character} {st : PState} {raw : Str} {st' : PState}
    (hstep : step cat st raw = some st')
    (ht : ∀ l ∈ allLines st.scenes, l.text ≠ [] ∧ jsTrim l.text = l.text) :
    ∀ l ∈ allLines st'.scenes, l.text ≠ [] ∧ jsTrim l.text = l.text := by
  rcases step_shape hstep with rfl | ⟨ch, hch, rfl⟩ | rfl |
    ⟨hne, chId, txt, dir, cur, hid, htxt, htr, hcur, rfl⟩ | ⟨scs, hb0, hu, rfl⟩
  · exact ht
  · exact ht
  · dsimp only
    intro l hl
    rw [allLines_append] at hl
    rcases List.mem_append.mp hl with hm | hm
    · exact ht l hm
    · simp [allLines] at hm
  · dsimp only
    intro l hl
    rw [allLines_push hne] at hl
    rcases List.mem_append.mp hl with hm | hm
    · exact ht l hm
    · obtain rfl := List.mem_singleton.mp hm
      exact ⟨htxt, htr⟩
  · have hne := updateLast_ne_nil hu
    rw [updateLast_eq hne] at hu
    obtain rfl := Option.some.inj hu
    dsimp only
    intro l hl
    have hmod := allLines_modify hne
      (fun l => { l with text := l.text ++ ' ' :: jsTrim raw })
    simp only at hmod
    rw [hmod] at hl
    have hsub : ∀ y ∈ (st.scenes.getLast hne).lines, y ∈ allLines st.scenes := by
      intro y hy
      rw [allLines_dropLast hne]
      exact List.mem_append.mpr (Or.inr hy)
    rcases List.mem_append.mp hl with hm | hm
    · apply ht
      rw [allLines_dropLast hne]
      exact List.mem_append.mpr (Or.inl hm)
    · rcases mem_modifyLastTotal hm with hm' | ⟨y, hy, rfl⟩
      · exact ht l (hsub l hm')
      · obtain ⟨hy1, hy2⟩ := ht y (hsub y hy)
        refine ⟨by simp, ?_⟩
        exact jsTrim_join hy1 hy2 hb0 (jsTrim_idem raw)

theorem runLines_texts {cat : List Character} {ls : List Str} {st' : PState}
    (h : runLines cat ls = some st') :
    ∀ l ∈ allLines st'.scenes, l.text ≠ [] ∧ jsTrim l.text = l.text :=
  foldlM_inv
    (fun st => ∀ l ∈ allLines st.scenes, l.text ≠ [] ∧ jsTrim l.text = l.text)
    (fun st raw st1 hP hs => step_texts hs hP)
    (by intro l hl; simp [initState, allLines] at hl) h

/-- Claim C9 (amended): every emitted Line's text is non-empty and trimmed (no
leading or trailing whitespace); internal whitespace runs are preserved from
the input rather than collapsed. -/
theorem claimC9_amended (raw : Str) (sc : Script) (h : analyzeScriptTextE raw = some sc) :
    ∀ l ∈ allLines sc.scenes, l.text ≠ [] ∧ jsTrim l.text = l.text := by
  obtain ⟨st', hrun, htitle, hchars, hscenes⟩ := analyzeScriptTextE_parts h
  rw [hscenes]
  exact runLines_texts hrun

/-- Claim C9 (counterexample): on the input `"a  b"` the engine stores the
line text verbatim with its internal double space, so the stored text is not
whitespace-collapsed. -/
theorem claimC9_counterexample :
    (analyzeScriptTextE (str "a  b")).map (fun sc => (allLines sc.scenes).map Line.text) =
      some [str "a  b"] ∧ wsCollapsed (str "a  b") = false := by
  constructor
  · rfl
  · rfl

/-! ### Lemmas: list prefixes under take -/

theorem take_append_le {α : Type} : ∀ (n : Nat) (l1 l2 : List α), n ≤ l1.length →
    (l1 ++ l2).take n = l1.take n := by
  intro n l1
  induction l1 generalizing n with
  | nil =>
    intro l2 h
    have hn : n = 0 := by simpa using h
    subst hn
    simp
  | cons a t ih =>
    intro l2 h
    cases n with
    | zero => simp
    | succ m =>
      simp only [List.cons_append, List.take_succ_cons]
      rw [ih m l2 (by simpa using h)]

theorem take_take_le {α : Type} : ∀ (l : List α) (a b : Nat), a ≤ b →
    (l.take b).take a = l.take a := by
  intro l
  induction l with
  | nil => intro a b h; simp
  | cons x t ih =>
    intro a b h
    cases a with
    | zero => simp
    | succ a2 =>
      cases b with
      | zero => omega
      | succ b2 =>
        simp only [List.take_succ_cons]
        rw [ih a2 b2 (by omega)]

theorem step_frame {cat : List Character} {st : PState} {raw : Str} {st' : PState}
    (hstep : step cat st raw = some st') :
    st.scenes.length ≤ st'.scenes.length ∧
      st'.scenes.take (st.scenes.length - 1) = st.scenes.take (st.scenes.length - 1) := by
  rcases step_shape hstep with rfl | ⟨ch, hch, rfl⟩ | rfl |
    ⟨hne, chId, txt, dir, cur, hid, htxt, htr, hcur, rfl⟩ | ⟨scs, hb0, hu, rfl⟩
  · exact ⟨Nat.le_refl _, rfl⟩
  · exact ⟨Nat.le_refl _, rfl⟩
  · dsimp only
    refine ⟨by simp, ?_⟩
    rw [take_append_le _ _ _ (Nat.sub_le _ _)]
  · dsimp only
    have hpos : 1 ≤ st.scenes.length := List.length_pos.mpr hne
    have h1 : st.scenes.length - 1 ≤ st.scenes.dropLast.length := by
      simp
    refine ⟨by simp; omega, ?_⟩
    rw [take_append_le _ _ _ h1, List.dropLast_eq_take, take_take_le _ _ _ (Nat.le_refl _)]
  · have hne := updateLast_ne_nil hu
    rw [updateLast_eq hne] at hu
    obtain rfl := Option.some.inj hu
    dsimp only
    have hpos : 1 ≤ st.scenes.length := List.length_pos.mpr hne
    have h1 : st.scenes.length - 1 ≤ st.scenes.dropLast.length := by
      simp
    refine ⟨by simp; omega, ?_⟩
    rw [take_append_le _ _ _ h1, List.dropLast_eq_take, take_take_le _ _ _ (Nat.le_refl _)]

/-- Claim C10: from any state of the walk, the whole rest of the run only
appends scenes and only modifies the current (last) scene: every previously
opened scene — all but the last — is exactly preserved, lines included. -/
theorem claimC10 (cat : List Character) : ∀ (ls : List Str) (st st' : PState),
    List.foldlM (step cat) st ls = some st' →
    st.scenes.length ≤ st'.scenes.length ∧
      st'.scenes.take (st.scenes.length - 1) = st.scenes.take (st.scenes.length - 1) := by
  intro ls
  induction ls with
  | nil =>
    intro st st' h
    rw [List.foldlM_nil] at h
    obtain rfl := Option.some.inj h
    exact ⟨Nat.le_refl _, rfl⟩
  | cons l ls ih =>
    intro st st' h
    rw [List.foldlM_cons] at h
    cases hst : step cat st l with
    | none =>
      rw [hst] at h
      simp at h
    | some st1 =>
      rw [hst] at h
      have h' : List.foldlM (step cat) st1 ls = some st' := h
      obtain ⟨hlen1, htake1⟩ := step_frame hst
      obtain ⟨hlen2, htake2⟩ := ih st1 st' h'
      refine ⟨Nat.le_trans hlen1 hlen2, ?_⟩
      have hle : st.scenes.length - 1 ≤ st1.scenes.length - 1 := by omega
      calc st'.scenes.take (st.scenes.length - 1)
          = (st'.scenes.take (st1.scenes.length - 1)).take (st.scenes.length - 1) :=
            (take_take_le _ _ _ hle).symm
        _ = (st1.scenes.take (st1.scenes.length - 1)).take (st.scenes.length - 1) := by
            rw [htake2]
        _ = st1.scenes.take (st.scenes.length - 1) := take_take_le _ _ _ hle
        _ = st.scenes.take (st.scenes.length - 1) := htake1

theorem length_modifyLastTotal {α : Type} (f : α → α) :
    ∀ l : List α, (modifyLastTotal f l).length = l.length := by
  intro l
  induction l with
  | nil => rfl
  | cons a t ih =>
    cases t with
    | nil => rfl
    | cons b u => simpa [modifyLastTotal] using ih

/-- Claim C5: a non-empty, non-marker, non-speaker, non-direction line arriving
while the current scene's last Line belongs to the current speaker is merged
into that Line — its text becomes the space-joined concatenation — and no new
Line is emitted: the line count and the line counter are unchanged. -/
theorem claimC5 (cat : List Character) (st : PState) (raw line cid : Str)
    (sc : Scene) (pl : Line)
    (hline : jsTrim raw = line) (hne : line ≠ [])
    (hmk : isSceneMarker line = false)
    (hsp : findSpeaker cat line = none)
    (hcur : st.current = some cid)
    (hdir : isSceneDirection line = false)
    (hlast : st.scenes.getLast? = some sc)
    (hpl : sc.lines.getLast? = some pl)
    (hcid : pl.characterId = cid) :
    ∃ st', step cat st raw = some st' ∧
      st'.scenes = st.scenes.dropLast ++
        [{ sc with lines :=
            sc.lines.dropLast ++ [{ pl with text := pl.text ++ ' ' :: line }] }] ∧
      st'.counter = st.counter ∧ st'.current = st.current ∧
      (allLines st'.scenes).length = (allLines st.scenes).length := by
  subst hline
  have hnescs : st.scenes ≠ [] := by
    intro hx
    rw [hx] at hlast
    simp at hlast
  have hsc : sc = st.scenes.getLast hnescs := by
    have := List.getLast?_eq_getLast st.scenes hnescs
    rw [hlast] at this
    exact Option.some.inj this
  have hlines : sc.lines.dropLast ++ [pl] = sc.lines :=
    List.dropLast_append_getLast? pl hpl
  have hmodeq : modifyLastTotal (fun l => { l with text := l.text ++ ' ' :: jsTrim raw })
      sc.lines = sc.lines.dropLast ++ [{ pl with text := pl.text ++ ' ' :: jsTrim raw }] := by
    conv_lhs => rw [← hlines]
    exact modifyLastTotal_concat _ _ _
  rw [step_merge hne hmk hsp hcur hdir hlast hpl hcid, updateLast_eq hnescs]
  simp only [Option.map_some']
  refine ⟨_, rfl, ?_, rfl, rfl, ?_⟩
  · dsimp only
    rw [← hsc, hmodeq]
  · have hlen : sc.lines.length = sc.lines.dropLast.length + 1 := by
      conv_lhs => rw [← hlines]
      simp
    dsimp only
    rw [← hsc, hmodeq, allLines_append]
    conv_rhs => rw [allLines_dropLast hnescs, ← hsc]
    simp only [allLines, List.map_cons, List.map_nil, List.flatten_cons, List.flatten_nil,
      List.append_nil, List.length_append, List.length_cons, List.length_nil]
    omega

/-- Claim C6: a line matching the act/scene marker pattern opens a new Scene
with the next sequential id and the full (trimmed) marker line as its name,
the new scene becomes the current (last) one and starts empty, and the marker
line itself is not stored as a Line (the flattened line list and the line
counter are unchanged). -/
theorem claimC6 (cat : List Character) (st : PState) (raw line : Str)
    (hline : jsTrim raw = line) (hne : line ≠ [])
    (hmk : isSceneMarker line = true) :
    ∃ st', step cat st raw = some st' ∧
      st'.scenes = st.scenes ++ [⟨natStr (st.scenes.length + 1), line, []⟩] ∧
      st'.scenes.getLast? = some ⟨natStr (st.scenes.length + 1), line, []⟩ ∧
      allLines st'.scenes = allLines st.scenes ∧
      st'.counter = st.counter ∧ st'.current = st.current := by
  subst hline
  rw [step_marker hne hmk]
  refine ⟨_, rfl, rfl, ?_, ?_, rfl, rfl⟩
  · dsimp only
    exact List.getLast?_concat _
  · dsimp only
    rw [allLines_append]
    simp [allLines]


/-! ### Witnesses: the claim theorems applied at concrete inputs -/

theorem claimC2_witness :
    ∃ sc, analyzeScriptTextE (str "ANNA: uno.\nANNA: due.") = some sc ∧
      (sc.scenes ≠ [] ∧ ∃ n, (allLines sc.scenes).map Line.id =
        (List.range n).map (fun i => natStr (i + 1))) :=
  ⟨_, (Option.some_get (by decide)).symm,
    claimC2 (str "ANNA: uno.\nANNA: due.") _ ((Option.some_get (by decide)).symm)⟩

theorem claimC3_witness :
    ∃ sc, analyzeScriptTextE (str "LUCA: a!\nMARCO: b!\nLUCA: c!\nMARCO: d!\nMARCO: e!") =
        some sc ∧
      (sc.characters.map Character.name =
        (likelyCharacters (splitNl
          (str "LUCA: a!\nMARCO: b!\nLUCA: c!\nMARCO: d!\nMARCO: e!"))).map Prod.fst ∧
      (likelyCharacters (splitNl
        (str "LUCA: a!\nMARCO: b!\nLUCA: c!\nMARCO: d!\nMARCO: e!"))).Pairwise
          (fun p q => q.2 ≤ p.2) ∧
      (∀ c, (likelyCharacters (splitNl
          (str "LUCA: a!\nMARCO: b!\nLUCA: c!\nMARCO: d!\nMARCO: e!"))).filter
            (fun p => p.2 == c) =
        (qualifying (splitNl
          (str "LUCA: a!\nMARCO: b!\nLUCA: c!\nMARCO: d!\nMARCO: e!"))).filter
            (fun p => p.2 == c)) ∧
      sc.characters.map Character.id =
        (List.range sc.characters.length).map (fun i => natStr (i + 1)) ∧
      (∀ n, n ∈ sc.characters.map Character.name ↔
        ∃ cnt, (n, cnt) ∈ tallyOf (splitNl
          (str "LUCA: a!\nMARCO: b!\nLUCA: c!\nMARCO: d!\nMARCO: e!")) ∧ 2 ≤ cnt) ∧
      (∀ n, (n, 1) ∈ tallyOf (splitNl
          (str "LUCA: a!\nMARCO: b!\nLUCA: c!\nMARCO: d!\nMARCO: e!")) →
        n ∉ sc.characters.map Character.name)) :=
  ⟨_, (Option.some_get (by decide)).symm,
    claimC3 (str "LUCA: a!\nMARCO: b!\nLUCA: c!\nMARCO: d!\nMARCO: e!") _
      ((Option.some_get (by decide)).symm)⟩

theorem claimC4_witness :
    ∃ sc, analyzeScriptTextE (str "MARA: ok.\nvai via ora\nMARA: resta.") = some sc ∧
      ((∀ l ∈ allLines sc.scenes,
        l.characterId = str "0" ∨ ∃ ch ∈ sc.characters, ch.id = l.characterId) ∧
      (∀ ch ∈ sc.characters, ch.id ≠ str "0")) :=
  ⟨_, (Option.some_get (by decide)).symm,
    claimC4 (str "MARA: ok.\nvai via ora\nMARA: resta.") _
      ((Option.some_get (by decide)).symm)⟩

theorem claimC5_witness :
    ∃ st', step [⟨str "1", str "ANNA"⟩]
        ⟨[⟨str "1", str "Scena 1", [⟨str "1", str "1", str "Ciao.", str "1", false⟩]⟩],
          some (str "1"), 1⟩ (str " e poi") = some st' ∧
      st'.scenes = [⟨str "1", str "Scena 1",
        [⟨str "1", str "1", str "Ciao. e poi", str "1", false⟩]⟩] ∧
      st'.counter = 1 ∧ st'.current = some (str "1") ∧
      (allLines st'.scenes).length = 1 := by
  obtain ⟨st', h1, h2, h3, h4, h5⟩ :=
    claimC5 [⟨str "1", str "ANNA"⟩]
      ⟨[⟨str "1", str "Scena 1", [⟨str "1", str "1", str "Ciao.", str "1", false⟩]⟩],
        some (str "1"), 1⟩
      (str " e poi") (str "e poi") (str "1")
      ⟨str "1", str "Scena 1", [⟨str "1", str "1", str "Ciao.", str "1", false⟩]⟩
      ⟨str "1", str "1", str "Ciao.", str "1", false⟩
      (by decide) (by decide) (by decide) (by decide) rfl (by decide) rfl rfl rfl
  refine ⟨st', h1, ?_, h3, h4, ?_⟩
  · rw [h2]
    decide
  · rw [h5]
    decide

theorem claimC6_witness :
    ∃ st', step [] ⟨[⟨str "1", str "Scena 1", []⟩], none, 0⟩ (str " ATTO II ") = some st' ∧
      st'.scenes = [⟨str "1", str "Scena 1", []⟩, ⟨str "2", str "ATTO II", []⟩] ∧
      st'.scenes.getLast? = some ⟨str "2", str "ATTO II", []⟩ ∧
      allLines st'.scenes = [] ∧ st'.counter = 0 ∧ st'.current = none := by
  obtain ⟨st', h1, h2, h3, h4, h5, h6⟩ :=
    claimC6 [] ⟨[⟨str "1", str "Scena 1", []⟩], none, 0⟩ (str " ATTO II ") (str "ATTO II")
      (by decide) (by decide) (by decide)
  refine ⟨st', h1, ?_, ?_, ?_, h5, h6⟩
  · rw [h2]
    decide
  · rw [h3]
    decide
  · rw [h4]
    decide

theorem claimC9_witness :
    ∃ sc, analyzeScriptTextE (str "EVA: si.\nEVA: no.") = some sc ∧
      ∀ l ∈ allLines sc.scenes, l.text ≠ [] ∧ jsTrim l.text = l.text :=
  ⟨_, (Option.some_get (by decide)).symm,
    claimC9_amended (str "EVA: si.\nEVA: no.") _ ((Option.some_get (by decide)).symm)⟩

theorem claimC10_witness :
    ∃ st', List.foldlM (step []) initState [str "SCENA II", str "ciao a te."] = some st' ∧
      (initState.scenes.length ≤ st'.scenes.length ∧
        st'.scenes.take (initState.scenes.length - 1) =
          initState.scenes.take (initState.scenes.length - 1)) :=
  ⟨_, (Option.some_get (by decide)).symm,
    claimC10 [] [str "SCENA II", str "ciao a te."] initState _
      ((Option.some_get (by decide)).symm)⟩


end ScriptBuddy
